import Mathlib

/-
Verification development for the devito compiler back end (IET pipeline,
elemental-function outlining, halo-exchange builder, device offloading,
frozen symbolic expressions).

Each section is a shallow embedding of one source file's relevant
operations, followed by theorems settling the spec claims about it.
-/

set_option maxRecDepth 4000

namespace Devito

/-! ## Section 1: FrozenExpr.xreplace (devito/symbolics/extended_sympy.py)

A sympy expression is modelled as a tree: an `atom` (a Symbol or a
number, which has no `args`), or `app head args` (an expression node
`head(*args)`).  `FrozenExpr.xreplace(rule)` is embedded below; the
`rule` dict becomes an association list looked up by structural
equality (sympy's `in`/`[]` on a dict of expressions compares by
structural hash/equality, and `_aresame` is structural sameness). -/

inductive FExpr where
  | atom (n : String)
  | app (head : String) (args : List FExpr)
deriving Repr

mutual

def FExpr.deq : (a b : FExpr) → Decidable (a = b)
  | .atom x, .atom y =>
    if h : x = y then .isTrue (by rw [h]) else .isFalse (by simp [h])
  | .atom _, .app _ _ => .isFalse (by simp)
  | .app _ _, .atom _ => .isFalse (by simp)
  | .app h as, .app g bs =>
    if hh : h = g then
      match FExpr.deqList as bs with
      | .isTrue h2 => .isTrue (by rw [hh, h2])
      | .isFalse h2 => .isFalse (by simp [h2])
    else .isFalse (by simp [hh])

def FExpr.deqList : (a b : List FExpr) → Decidable (a = b)
  | [], [] => .isTrue rfl
  | [], _ :: _ => .isFalse (by simp)
  | _ :: _, [] => .isFalse (by simp)
  | a :: as, b :: bs =>
    match FExpr.deq a b, FExpr.deqList as bs with
    | .isTrue h1, .isTrue h2 => .isTrue (by rw [h1, h2])
    | .isFalse h1, _ => .isFalse (by simp [h1])
    | .isTrue _, .isFalse h2 => .isFalse (by simp [h2])

end

instance : DecidableEq FExpr := FExpr.deq

/-- `e.args` of a sympy expression: atoms have no args. -/
def fargs : FExpr → List FExpr
  | .atom _ => []
  | .app _ as => as

/-- `self.func(*args, evaluate=False)`: rebuild the same head over new
arguments with evaluation suppressed.  In the model this is the raw
constructor, i.e. no simplification of any kind happens. -/
def ffunc : FExpr → List FExpr → FExpr
  | .atom n, _ => .atom n
  | .app h _, as => .app h as

/-- Dictionary lookup `rule[self]` / `self in rule`. -/
def flookup (r : List (FExpr × FExpr)) (e : FExpr) : Option FExpr :=
  match r with
  | [] => none
  | (k, v) :: r => if k = e then some v else flookup r e

mutual

/-- Embedding of `FrozenExpr.xreplace(self, rule)`:
if `self in rule` return `rule[self]`; `elif rule:` map `xreplace` over
`self.args` (the `try/except AttributeError` around each argument
handles non-sympy arguments, which do not occur in the model: every
argument is an `FExpr`); if the mapped args differ from `self.args`
(`not _aresame(args, self.args)`) rebuild via
`self.func(*args, evaluate=False)`; in every other case return `self`.
An atom has no args, so both the empty-rule path and the
args-unchanged path return it unchanged; the two constructor branches
below spell that out so the recursion is structural. -/
def xreplace (rule : List (FExpr × FExpr)) : FExpr → FExpr
  | .atom n =>
    match flookup rule (.atom n) with
    | some v => v
    | none => .atom n
  | .app h as =>
    match flookup rule (.app h as) with
    | some v => v
    | none =>
      if rule.isEmpty then .app h as
      else
        let args := xreplaceArgs rule as
        if args = as then .app h as else .app h args

/-- The `for a in self.args` loop body: apply `xreplace` to every argument. -/
def xreplaceArgs (rule : List (FExpr × FExpr)) : List FExpr → List FExpr
  | [] => []
  | a :: as => xreplace rule a :: xreplaceArgs rule as

end

lemma xreplaceArgs_eq_map (rule : List (FExpr × FExpr)) (as : List FExpr) :
    xreplaceArgs rule as = as.map (xreplace rule) := by
  induction as with
  | nil => rfl
  | cons a as ih => rw [xreplaceArgs, ih]; rfl

/-- The four behavioural cases of `xreplace`, stated over `fargs`/`ffunc`. -/
lemma xreplace_cases (rule : List (FExpr × FExpr)) (e : FExpr) :
    (∀ v, flookup rule e = some v → xreplace rule e = v) ∧
    (rule = [] → xreplace rule e = e) ∧
    (flookup rule e = none → (fargs e).map (xreplace rule) = fargs e →
      xreplace rule e = e) ∧
    (flookup rule e = none → rule ≠ [] →
      (fargs e).map (xreplace rule) ≠ fargs e →
      xreplace rule e = ffunc e ((fargs e).map (xreplace rule))) := by
  refine ⟨?_, ?_, ?_, ?_⟩
  · intro v hv
    cases e <;> rw [xreplace, hv]
  · intro hr
    subst hr
    cases e <;> rw [xreplace] <;> simp [flookup]
  · intro hl hsame
    cases e with
    | atom n => rw [xreplace, hl]
    | app h as =>
      rw [xreplace, hl]
      rcases rule with _ | ⟨p, r⟩
      · simp
      · simp only [List.isEmpty_cons, Bool.false_eq_true, if_false]
        rw [xreplaceArgs_eq_map]
        rw [show ((fargs (FExpr.app h as)).map (xreplace (p :: r))
          = fargs (FExpr.app h as)) = (as.map (xreplace (p :: r)) = as)
          from rfl] at hsame
        rw [if_pos hsame]
  · intro hl hr hdiff
    cases e with
    | atom n =>
      simp only [fargs, List.map_nil, ne_eq, not_true_eq_false] at hdiff
    | app h as =>
      rw [xreplace, hl]
      rw [if_neg (by simpa using hr)]
      rw [xreplaceArgs_eq_map]
      rw [show ((fargs (FExpr.app h as)).map (xreplace rule)
        ≠ fargs (FExpr.app h as)) = (as.map (xreplace rule) ≠ as)
        from rfl] at hdiff
      rw [if_neg hdiff]
      rfl

/-! ## Section 2: MPI halo-exchange builder (devito/mpi/routines.py)

The builder synthesizes `Callable`s out of IET nodes.  Symbolic
arguments (`Symbol`, `Array`, `Macro`, `FieldFromPointer`, ...) are
modelled by `MArg`; IET nodes relevant to the generated routines
(`Call`, `Conditional(CondNe(..), ..)`, `Expression`, `Iteration`,
`ArrayCast`) by `MNode`.  A `DiscreteFunction` `f` enters generation
only through the generic stand-in
`df = f.__class__.__base__(name='a', grid=f.grid, shape=f.shape_global,
dimensions=f.dimensions)`, so the routines below take the dimension
names of `f` (`dims`), the fixed (loc-index) dimensions (`fixed`) and
use the array name `a` throughout, exactly as the source does. -/

/-- A data side (devito/data: LEFT, RIGHT). -/
inductive Side where
  | left
  | right
deriving DecidableEq, Repr

/-- A data region (devito/data: OWNED, HALO, NOPAD). -/
inductive Region where
  | owned
  | halo
  | nopad
deriving DecidableEq, Repr

/-- An index expression inside a generated copy loop:
either a plain running dimension `d`, or `o<d> + d`, or `o<d> + 0`
(the fixed-dimension case), from `_make_copy`. -/
inductive IdxExpr where
  | dimIdx (d : String)
  | ofsPlusDim (o : String) (d : String)
  | ofsPlusZero (o : String)
deriving DecidableEq, Repr

/-- A symbolic argument of a generated routine. -/
inductive MArg where
  | sym (name : String)                        -- Symbol / Array / LocalObject
  | mac (name : String)                        -- Macro (MPI_PROC_NULL, MPI type)
  | intLit (n : Int)                           -- sympy Integer (message tag 13)
  | field (name : String) (ptr : String)       -- FieldFromPointer: ptr->name
  | prodSizes (dims : List String)             -- reduce(mul, buf.shape, 1)
  | sizeMinusOne (d : String)                  -- d.symbolic_size - 1
  | fieldOfs (r : Region) (d : String) (s : Side)   -- f._C_get_field(r,d,s).offset
  | fieldSize (r : Region) (d : String) (s : Side)  -- f._C_get_field(r,d,s).size
  | idx (base : String) (indices : List IdxExpr)    -- array access a[i0,...]
deriving DecidableEq, Repr

/-- An IET node of a generated MPI routine. -/
inductive MNode where
  | call (name : String) (args : List MArg)
  | cond (lhs rhs : MArg) (body : MNode)   -- Conditional(CondNe(lhs, rhs), body)
  | expr (lhs rhs : MArg)                  -- Expression(DummyEq(lhs, rhs))
  | iter (dim : String) (ub : MArg) (body : MNode)  -- Iteration(body, dim, ub), PARALLEL
  | cast (name : String)                   -- ArrayCast
deriving DecidableEq, Repr

/-- A generated Callable: name, body, return type, ordered formal
parameters.  The `('static',)` linkage qualifier is common to all
generated callables and is not modelled as data. -/
structure MCallable where
  name : String
  body : List MNode
  retval : String
  parameters : List MArg
deriving DecidableEq, Repr

/-- Modelled from the spec: `dtype_to_mpitype` (devito/tools, not under
src/) derives the element datatype "from the array's element type via a
fixed type table". -/
def dtype_to_mpitype (d : String) : String :=
  if d = "float32" then "MPI_FLOAT"
  else if d = "float64" then "MPI_DOUBLE"
  else if d = "int32" then "MPI_INT"
  else "MPI_BYTE"

/-- Modelled from the spec: the DLE invocation
`transform(iet, 'simd', {'openmp': self._threaded})` (devito/dle
driver, not under src/) runs the copy-routine body through the
parallelization pass "in a vectorize-only configuration (no nested
parallel region)"; it leaves the node structure of the small copy nest
in place and contributes `state.input`, the "auxiliary parameters
threaded from the copy routines" (a thread-count parameter exactly when
shared-memory threading is enabled). -/
def dle_transform (threaded : Bool) (iet : List MNode) :
    List MNode × List MArg :=
  (iet, if threaded then [MArg.sym "nthreads"] else [])

/-- Modelled from the spec: `iet_insert_C_decls` (devito/ir/iet, not
under src/) is `insertDeclarations(tree)`: it inserts each local
declaration before the symbol's first use, "preserving all other
ordering".  Declarations are not modelled as body operations, so on the
operation list it is the identity. -/
def iet_insert_C_decls (iet : List MNode) : List MNode :=
  iet

/-- Embedding of `HaloExchangeBuilder._make_copy(f, fixed, swap)`:
builds `gather<n>d` (`swap=False`) or `scatter<n>d` (`swap=True`),
copying between an arbitrary convex region of the rank-`n` array `a`
and a contiguous buffer `buf`, and returns `(Callable, state.input)`. -/
def make_copy (dims fixed : List String) (threaded swap : Bool) :
    MCallable × List MArg :=
  let bufDims := (dims.filter (fun d => ¬ d ∈ fixed)).map (fun d => "buf_" ++ d)
  let bufIndices := dims.filter (fun d => ¬ d ∈ fixed)
  let fOffsets := dims.map (fun d => "o" ++ d)
  let fIndices := dims.map (fun d =>
    if d ∈ fixed then IdxExpr.ofsPlusZero ("o" ++ d)
    else IdxExpr.ofsPlusDim ("o" ++ d) d)
  let n := dims.length
  let eqn :=
    if swap = false then
      MNode.expr (.idx "buf" (bufIndices.map IdxExpr.dimIdx)) (.idx "a" fIndices)
    else
      MNode.expr (.idx "a" fIndices) (.idx "buf" (bufIndices.map IdxExpr.dimIdx))
  let name := if swap = false then "gather" ++ toString n ++ "d"
              else "scatter" ++ toString n ++ "d"
  -- `for i, d in reversed(list(zip(buf_indices, buf_dims))):
  --      iet = Iteration(iet, i, d.symbolic_size - 1, properties=PARALLEL)`
  let iet0 := ((bufIndices.zip bufDims).reverse).foldl
    (fun acc p => MNode.iter p.1 (MArg.sizeMinusOne p.2) acc) eqn
  let iet1 : List MNode := [MNode.cast "a", MNode.cast "buf", iet0]
  let st := dle_transform threaded iet1
  let parameters := [MArg.sym "buf"] ++ bufDims.map (fun d => MArg.sym (d ++ "_size"))
    ++ [MArg.sym "a"] ++ fOffsets.map MArg.sym ++ st.2
  (⟨name, st.1, "void", parameters⟩, st.2)

/-- Embedding of `BasicHaloExchangeBuilder._make_sendrecv(f, fixed, extra)`:
builds `sendrecv<n>d`.  The body is, in source order,
`List(body=[recv, gather, send, waitsend, waitrecv, scatter])` where
`gather`/`scatter` are wrapped in `Conditional(CondNe(.., MPI_PROC_NULL))`
and `recv`/`send` are the non-blocking MPI calls. -/
def make_sendrecv (dims fixed : List String) (mpitype : String)
    (extra : List MArg) : MCallable :=
  let n := dims.length
  let bufDims := (dims.filter (fun d => ¬ d ∈ fixed)).map (fun d => "buf_" ++ d)
  let bufShape := bufDims.map (fun d => MArg.sym (d ++ "_size"))
  let ofsg := dims.map (fun d => MArg.sym ("og" ++ d))
  let ofss := dims.map (fun d => MArg.sym ("os" ++ d))
  let gatherCall := MNode.call ("gather" ++ toString n ++ "d")
    ([MArg.sym "bufg"] ++ bufShape ++ [MArg.sym "a"] ++ ofsg ++ extra)
  let scatterCall := MNode.call ("scatter" ++ toString n ++ "d")
    ([MArg.sym "bufs"] ++ bufShape ++ [MArg.sym "a"] ++ ofss ++ extra)
  -- The `gather` is unnecessary if sending to MPI.PROC_NULL
  let gather := MNode.cond (.sym "torank") (.mac "MPI_PROC_NULL") gatherCall
  -- The `scatter` must be guarded: halo values along the domain boundary,
  -- where the sender is MPI.PROC_NULL, must not be altered
  let scatter := MNode.cond (.sym "fromrank") (.mac "MPI_PROC_NULL") scatterCall
  let count := MArg.prodSizes bufDims
  let recv := MNode.call "MPI_Irecv"
    [.sym "bufs", count, .mac mpitype, .sym "fromrank", .intLit 13, .sym "comm",
     .sym "rrecv"]
  let send := MNode.call "MPI_Isend"
    [.sym "bufg", count, .mac mpitype, .sym "torank", .intLit 13, .sym "comm",
     .sym "rsend"]
  let waitrecv := MNode.call "MPI_Wait" [.sym "rrecv", .sym "srecv"]
  let waitsend := MNode.call "MPI_Wait" [.sym "rsend", .sym "ssend"]
  let body := iet_insert_C_decls [recv, gather, send, waitsend, waitrecv, scatter]
  let parameters := [MArg.sym "a"] ++ bufShape ++ ofsg ++ ofss
    ++ [MArg.sym "fromrank", MArg.sym "torank", MArg.sym "comm"] ++ extra
  ⟨"sendrecv" ++ toString n ++ "d", body, "void", parameters⟩

/-- Modelled from the spec: `f._C_get_field(region, d, side)`
(devito/function, not under src/) returns the symbolic size and offset
of a data-region field of the array; the model keeps them as opaque
symbolic atoms `MArg.fieldSize` / `MArg.fieldOfs`. The mapper entry
`(d0, side, region) -> (sizes, offsets)` of `_make_haloupdate` uses
region `NOPAD` for every dimension other than `d0`, the fresh `o<d>`
symbol for fixed dimensions, and collects sizes only over non-fixed
dimensions. -/
def hu_sizes (dims fixed : List String) (d0 : String) (side : Side)
    (region : Region) : List MArg :=
  (dims.filter (fun d => ¬ d ∈ fixed)).map
    (fun d1 => MArg.fieldSize (if d0 = d1 then region else .nopad) d1 side)

/-- Offsets half of the `_make_haloupdate` mapper (see `hu_sizes`). -/
def hu_offsets (dims fixed : List String) (d0 : String) (side : Side)
    (region : Region) : List MArg :=
  dims.map (fun d1 =>
    if d1 ∈ fixed then MArg.sym ("o" ++ d1)
    else MArg.fieldOfs (if d0 = d1 then region else .nopad) d1 side)

/-- The neighborhood lookup `FieldFromPointer(name, nb)` where `name`
spells `r`/`l` at position `d` and `c` elsewhere over the
distributor's dimensions. -/
def peer (distDims : List String) (d : String) (c : String) : MArg :=
  MArg.field (String.join (distDims.map (fun i => if i = d then c else "c"))) "nb"

/-- The sendrecv call emitted by `_make_haloupdate` for `(d, LEFT)`:
sending to left (owned-left as source), receiving from right
(halo-right as destination); and symmetrically for `(d, RIGHT)`. -/
def hu_call (dims fixed distDims : List String) (extra : List MArg)
    (d : String) (side : Side) : MNode :=
  let n := dims.length
  match side with
  | .left =>
    MNode.call ("sendrecv" ++ toString n ++ "d")
      ([MArg.sym "a"] ++ hu_sizes dims fixed d .left .owned
        ++ hu_offsets dims fixed d .left .owned
        ++ hu_offsets dims fixed d .right .halo
        ++ [peer distDims d "r", peer distDims d "l", MArg.sym "comm"] ++ extra)
  | .right =>
    MNode.call ("sendrecv" ++ toString n ++ "d")
      ([MArg.sym "a"] ++ hu_sizes dims fixed d .right .owned
        ++ hu_offsets dims fixed d .right .owned
        ++ hu_offsets dims fixed d .left .halo
        ++ [peer distDims d "l", peer distDims d "r", MArg.sym "comm"] ++ extra)

/-- Embedding of `BasicHaloExchangeBuilder._make_haloupdate(f, fixed,
mask, extra, uniquekey)`: for each non-fixed dimension, in the array's
declared dimension order, emit the `(d, LEFT)` exchange if
`mask[(d, LEFT)]` and the `(d, RIGHT)` exchange if `mask[(d, RIGHT)]`. -/
def make_haloupdate (dims fixed distDims : List String)
    (mask : String → Side → Bool) (extra : List MArg) (uniquekey : Nat) :
    MCallable :=
  let n := dims.length
  let body := (dims.filter (fun d => ¬ d ∈ fixed)).flatMap (fun d =>
    (if mask d .left then [hu_call dims fixed distDims extra d .left] else [])
    ++ (if mask d .right then [hu_call dims fixed distDims extra d .right] else []))
  let name := "haloupdate" ++ toString n ++ "d" ++ toString uniquekey
  let parameters := [MArg.sym "a", MArg.sym "comm", MArg.sym "nb"]
    ++ fixed.map (fun d => MArg.sym ("o" ++ d)) ++ extra
  ⟨name, body, "void", parameters⟩

/-- Modelled from the spec: one `(f, v)` item of a HaloSpot's `fmapper`
(the HaloScheme, devito/ir/support, is not under src/).  Per the spec's
data model a HaloSpot carries, per array, the per-(dimension, side)
boolean "exchange needed" mask (`hs.mask[f]`) plus the fixed/local
index dimensions with their current index values (`v.loc_indices`);
the spec's dedup table keys the halo-update routine on `(rank, mask)`,
so the fmapper value `v` entering the dedup key is the mask pattern. -/
structure FEntry where
  fname : String
  dims : List String
  distDims : List String
  dtype : String
  locIndices : List (String × MArg)
  mask : List ((String × Side) × Bool)
deriving DecidableEq, Repr

/-- `f.ndim`. -/
def FEntry.ndim (e : FEntry) : Nat := e.dims.length

/-- The keys of `v.loc_indices` (the fixed dimensions). -/
def FEntry.locKeys (e : FEntry) : List String := e.locIndices.map Prod.fst

/-- `hs.mask[f]` as a lookup function `(dimension, side) -> Bool`. -/
def FEntry.maskFun (e : FEntry) (d : String) (s : Side) : Bool :=
  match e.mask.find? (fun p => p.1 == (d, s)) with
  | some p => p.2
  | none => false

/-- A key of the `generated` OrderedDict of `HaloExchangeBuilder.make`:
either a plain rank `f.ndim` (for gather/scatter/sendrecv) or the
tuple `(f.ndim, v)` (for haloupdate). -/
inductive GKey where
  | rank (n : Nat)
  | rankMask (n : Nat) (mask : List ((String × Side) × Bool))
deriving DecidableEq, Repr

/-- A generated routine, tagged by which builder produced it. -/
inductive Routine where
  | gatherR (c : MCallable)
  | scatterR (c : MCallable)
  | sendrecvR (c : MCallable)
  | haloupdateR (c : MCallable)
deriving DecidableEq, Repr

/-- Lookup in the `generated` OrderedDict. -/
def lookupG (g : List (GKey × List Routine)) (k : GKey) :
    Option (List Routine) :=
  match g.find? (fun p => p.1 == k) with
  | some p => some p.2
  | none => none

/-- `len([i for i in generated if isinstance(i, tuple)])`: the number of
tuple-shaped keys, used as the `uniquekey` of the next haloupdate. -/
def countTupleKeys (g : List (GKey × List Routine)) : Nat :=
  g.countP (fun p => match p.1 with | .rankMask _ _ => true | _ => false)

/-- The running state of `HaloExchangeBuilder.make`: the `generated`
OrderedDict and the last value assigned to the Python variable
`extra` (assigned inside the rank-dedup branch, read afterwards). -/
structure MakeState where
  generated : List (GKey × List Routine)
  extra : List MArg
deriving Repr

/-- One iteration of the `for f, v in hs.fmapper.items()` loop of
`HaloExchangeBuilder.make`: generate `gather`/`scatter`/`sendrecv` if
the rank `f.ndim` is new, generate `haloupdate` if `(f.ndim, v)` is
new, then build the call-site `Call` for this entry. -/
def makeEntry (threaded : Bool) (st : MakeState) (e : FEntry) :
    MakeState × MNode :=
  let st1 :=
    if (lookupG st.generated (.rank e.ndim)).isSome then st
    else
      let g := make_copy e.dims e.locKeys threaded false
      let s := make_copy e.dims e.locKeys threaded true
      let sr := make_sendrecv e.dims e.locKeys (dtype_to_mpitype e.dtype) g.2
      ⟨st.generated ++ [(.rank e.ndim, [.gatherR g.1, .scatterR s.1, .sendrecvR sr])],
       g.2⟩
  let st2 :=
    if (lookupG st1.generated (.rankMask e.ndim e.mask)).isSome then st1
    else
      let uniquekey := countTupleKeys st1.generated
      let hu := make_haloupdate e.dims e.locKeys e.distDims e.maskFun st1.extra
        uniquekey
      ⟨st1.generated ++ [(.rankMask e.ndim e.mask, [.haloupdateR hu])], st1.extra⟩
  -- `call = Call(generated[(f.ndim, v)][0].name, args)`
  let name := match lookupG st2.generated (.rankMask e.ndim e.mask) with
              | some (Routine.haloupdateR c :: _) => c.name
              | _ => ""   -- never reached: the key was just ensured present
  let args := [MArg.sym e.fname, MArg.sym "comm", MArg.sym "nb"]
    ++ e.locIndices.map Prod.snd ++ st2.extra
  (st2, MNode.call name args)

/-- Embedding of `HaloExchangeBuilder.make(halo_spots)`: each halo spot
is its list of fmapper entries; the result is
`flatten(generated.values())` plus, per halo spot, the list of
`haloupdate` call sites. -/
def make (threaded : Bool) (halo_spots : List (List FEntry)) :
    List Routine × List (List MNode) :=
  let res := halo_spots.foldl
    (fun (acc : MakeState × List (List MNode)) hs =>
      let r := hs.foldl
        (fun (a : MakeState × List MNode) e =>
          let q := makeEntry threaded a.1 e
          (q.1, a.2 ++ [q.2]))
        (acc.1, [])
      (r.1, acc.2 ++ [r.2]))
    (⟨[], []⟩, [])
  ((res.1.generated.map Prod.snd).flatten, res.2)

/-! ## Section 3: elemental-function outlining (devito/dle/backends/basic.py)

The Iteration/Expression tree is modelled by `INode`.  Python keys the
`Transformer` replacement maps by object identity; following the
spec's design note ("an explicit node arena addressed by stable
handles, with replacement maps from handle to replacement handle"),
identity is modelled by a stable numeric handle `nid` on every
Iteration, and replacement maps are keyed by that handle.  An
`Expression` is abstracted to exactly what the pass inspects about it:
the tensor symbols and the free scalar symbols it references. -/

/-- A symbolic scalar expression (loop bounds, uindex minima, call
arguments). -/
inductive IExp where
  | sym (s : String)
  | lit (n : Int)
  | add (a b : IExp)
deriving DecidableEq, Repr

/-- An unbounded index (`IncrDimension` sub-index for blocking /
strides): name, parent dimension, symbolic minimum, step. -/
structure UIndex where
  name : String
  parent : String
  symMin : IExp
  step : IExp
deriving DecidableEq, Repr

/-- The payload of an Iteration node: identity handle, dimension,
symbolic bounds, step, sub-indices, outlining tag, elementizability. -/
structure IterData where
  nid : Nat
  dim : String
  lo : IExp
  hi : IExp
  step : IExp
  uindices : List UIndex
  tag : Option Nat
  elementizable : Bool
deriving Repr

/-- An IET node. `seq` models `List` (with `header` recording whether
the noinline decoration is attached); `callI` a `Call`; `cast` an
`ArrayCast`. -/
inductive INode where
  | expr (tensors scalars : List String)
  | iter (d : IterData) (body : List INode)
  | seq (header : Bool) (body : List INode)
  | callI (name : String) (args : List IExp)
  | cast (tensor : String)
deriving Repr

/-- The children of a node. -/
def childrenOf : INode → List INode
  | .iter _ b => b
  | .seq _ b => b
  | _ => []

/-- Rebuild a node over new children. -/
def withChildren : INode → List INode → INode
  | .iter d _, b => .iter d b
  | .seq h _, b => .seq h b
  | n, _ => n

/-- The outlining tag of a node (None on non-Iterations). -/
def tagOf : INode → Option Nat
  | .iter d _ => d.tag
  | _ => none

/-- `is_Elementizable`. -/
def elementizableOf : INode → Bool
  | .iter d _ => d.elementizable
  | _ => false

/-- The identity handle of a node (0 on non-Iterations, which are
never keys of the replacement maps built by this pass). -/
def nidOf : INode → Nat
  | .iter d _ => d.nid
  | _ => 0

mutual

/-- Number of nodes, used as a recursion-depth bound. -/
def isize : INode → Nat
  | .expr _ _ => 1
  | .iter _ b => 1 + isizeL b
  | .seq _ b => 1 + isizeL b
  | .callI _ _ => 1
  | .cast _ => 1

/-- Number of nodes of a node list. -/
def isizeL : List INode → Nat
  | [] => 0
  | n :: ns => isize n + isizeL ns

end

mutual

/-- Modelled from the spec: `retrieve_iteration_tree(nodes,
mode='superset')` (devito/ir/iet, not under src/) enumerates "every
maximal nested-loop chain; mode=superset includes overlapping chains
sharing a prefix".  Each chain is the list of Iteration nodes from an
outermost iteration down to one innermost iteration nested in it. -/
def iterChains : INode → List (List INode)
  | .iter d b =>
    match iterChainsL b with
    | [] => [[.iter d b]]
    | sub => sub.map (fun c => .iter d b :: c)
  | .seq _ b => iterChainsL b
  | _ => []

/-- Chains of a node list, in order. -/
def iterChainsL : List INode → List (List INode)
  | [] => []
  | n :: ns => iterChains n ++ iterChainsL ns

end

/-- Lookup in a handle-keyed replacement map. -/
def lookupN (m : List (Nat × INode)) (k : Nat) : Option INode :=
  match m.find? (fun p => p.1 == k) with
  | some p => some p.2
  | none => none

mutual

/-- Modelled from the spec: the identity-keyed structural rewrite
`Transformer(mapper).visit(tree)` with `nested=False` (devito/ir/iet,
not under src/): replace each node whose handle is a key of the map by
the mapped node; a replacement's own descendants are NOT further
rewritten (only `nested=True` "permits a replacement's own descendants
to be further rewritten by other entries in the same map"). -/
def visitPlain (m : List (Nat × INode)) : INode → INode
  | .iter d b =>
    match lookupN m d.nid with
    | some r => r
    | none => .iter d (visitPlainL m b)
  | .seq h b => .seq h (visitPlainL m b)
  | n => n

/-- `visitPlain` over a node list. -/
def visitPlainL (m : List (Nat × INode)) : List INode → List INode
  | [] => []
  | n :: ns => visitPlain m n :: visitPlainL m ns

end

/-- Modelled from the spec: `Transformer(mapper, nested=True).visit`:
at each node, first substitute the node by its replacement (if its
handle is mapped), then recurse into the children of the resulting
node, so "a replacement's own descendants [may] be further rewritten by
other entries in the same map".  `fuel` bounds the recursion depth; any
value at least the nesting depth of the visited tree computes the
fixed substitution exactly (in this pass each replacement keeps the
children of the node it replaces, so `isize` of the root suffices). -/
def visitNested (m : List (Nat × INode)) : Nat → INode → INode
  | 0, n => n
  | fuel + 1, n =>
    let n1 := match n with
              | .iter d b =>
                match lookupN m d.nid with
                | some r => r
                | none => .iter d b
              | other => other
    withChildren n1 ((childrenOf n1).map (visitNested m fuel))

/-- A derived parameter: a scalar symbol, a dimension, or a tensor
(the three cases distinguished by the argument-building loop of
`_create_efuncs`). -/
inductive PSym where
  | scalar (name : String)
  | dim (name : String)
  | tensor (name : String)
deriving DecidableEq, Repr

/-- The name of a derived parameter. -/
def PSym.pname : PSym → String
  | .scalar n => n
  | .dim n => n
  | .tensor n => n

/-- A derived parameter as a call-site expression (the pass-through
case of the argument-building loop). -/
def pArgOf : PSym → IExp
  | .scalar n => .sym n
  | .dim n => .sym n
  | .tensor n => .sym n

/-- The scalar symbols of an expression, in occurrence order. -/
def symsOf : IExp → List String
  | .sym s => [s]
  | .lit _ => []
  | .add a b => symsOf a ++ symsOf b

mutual

/-- Modelled from the spec: the symbol-collection half of
`FindSymbols`/`derive_parameters` (devito/ir/iet, not under src/):
every symbol or array "referenced" inside a tree, in occurrence
order.  Sub-index parents are dimensions. -/
def refsOf : INode → List PSym
  | .expr ts ss => ts.map .tensor ++ ss.map .scalar
  | .iter d b =>
    (symsOf d.lo ++ symsOf d.hi ++ symsOf d.step).map .scalar
      ++ d.uindices.flatMap (fun u =>
        [PSym.dim u.parent] ++ (symsOf u.symMin ++ symsOf u.step).map .scalar)
      ++ refsOfL b
  | .seq _ b => refsOfL b
  | .callI _ args => (args.flatMap symsOf).map .scalar
  | .cast t => [.tensor t]

/-- `refsOf` over a node list. -/
def refsOfL : List INode → List PSym
  | [] => []
  | n :: ns => refsOf n ++ refsOfL ns

end

mutual

/-- Modelled from the spec: `FindSymbols('defines')` — the symbols
"locally defined/declared" inside a tree: each Iteration defines its
dimension and its sub-index names. -/
def boundNames : INode → List String
  | .iter d b => [d.dim] ++ d.uindices.map UIndex.name ++ boundNamesL b
  | .seq _ b => boundNamesL b
  | _ => []

/-- `boundNames` over a node list. -/
def boundNamesL : List INode → List String
  | [] => []
  | n :: ns => boundNames n ++ boundNamesL ns

end

mutual

/-- `FindSymbols('symbolics')`: the tensor symbols referenced in a
tree, in occurrence order. -/
def tensorRefs : INode → List String
  | .expr ts _ => ts
  | .iter _ b => tensorRefsL b
  | .seq _ b => tensorRefsL b
  | .cast t => [t]
  | .callI _ _ => []

/-- `tensorRefs` over a node list. -/
def tensorRefsL : List INode → List String
  | [] => []
  | n :: ns => tensorRefs n ++ tensorRefsL ns

end

/-- Duplicate removal keeping first occurrences (string names). -/
def dedupStr (l : List String) : List String :=
  l.foldl (fun acc s => if s ∈ acc then acc else acc ++ [s]) []

/-- Duplicate removal keeping first occurrences, keyed by name. -/
def dedupByName (l : List PSym) : List PSym :=
  l.foldl (fun acc p =>
    if p.pname ∈ acc.map PSym.pname then acc else acc ++ [p]) []

/-- Modelled from the spec: `derive_parameters(tree)` (devito/ir/iet,
not under src/): the "ordered, duplicate-free list of symbols/arrays
referenced but not locally bound inside `tree`; this is exactly an
outlined function's required parameter set". -/
def deriveParameters (t : INode) : List PSym :=
  (dedupByName (refsOf t)).filter (fun p => ¬ p.pname ∈ boundNames t)

/-- Lookup in the `defined_args` map. -/
def lookupS (m : List (String × IExp)) (k : String) : Option IExp :=
  match m.find? (fun p => p.1 == k) with
  | some p => some p.2
  | none => none

/-- Step 3 of the outlining pass for one Iteration of the slice:
synthesize the fresh bound scalars `<dim>f_m`/`<dim>f_M` recording the
iteration's symbolic bounds, one fresh scalar `<dim>_ub<j>` per
sub-index recording its symbolic minimum, and rebuild the payload with
`limits=[<dim>f_m, <dim>f_M, 1]` and sub-indices
`IncrDimension(parent, dim + <dim>_ub<j>, 1, name)`. -/
def freeIterData (d : IterData) : List (String × IExp) × IterData :=
  let mn := d.dim ++ "f_m"
  let mx := d.dim ++ "f_M"
  let da := [(mn, d.lo), (mx, d.hi)]
    ++ d.uindices.enum.map (fun p => (d.dim ++ "_ub" ++ toString p.1, p.2.symMin))
  let newUI := d.uindices.enum.map (fun p =>
    { name := p.2.name, parent := p.2.parent,
      symMin := IExp.add (.sym d.dim) (.sym (d.dim ++ "_ub" ++ toString p.1)),
      step := IExp.lit 1 : UIndex })
  (da, { d with lo := .sym mn, hi := .sym mx, step := .lit 1, uindices := newUI })

/-- The `for i in target` loop: accumulate `defined_args` and the
`zip(target, free)` replacement pairs (each rebuilt Iteration keeps
the body of the Iteration it replaces). -/
def buildFree : List INode → List (String × IExp) × List (Nat × INode)
  | [] => ([], [])
  | n :: ns =>
    let rest := buildFree ns
    match n with
    | .iter d b =>
      let f := freeIterData d
      (f.1 ++ rest.1, (d.nid, INode.iter f.2 b) :: rest.2)
    | _ => rest

/-- The argument-building loop over `derive_parameters(free)`: a bound
parameter's call argument is its recorded origin expression; a
dimension becomes a matching scalar on both sides; anything else is
passed through. -/
def elemArgs (definedArgs : List (String × IExp)) (ps : List PSym) :
    List (IExp × PSym) :=
  ps.map (fun p =>
    match lookupS definedArgs p.pname with
    | some v => (v, p)
    | none =>
      match p with
      | .dim n => (.sym n, .scalar n)
      | q => (pArgOf q, q))

/-- What one candidate chain contributes: the root's handle, the
callable name, the recorded origin expressions, the outlined slice,
the rebuilt body, and the paired call arguments / formal parameters. -/
structure ChainResult where
  rootNid : Nat
  name : String
  definedArgs : List (String × IExp)
  target : List INode
  freeBody : INode
  callArgs : List IExp
  parameters : List PSym
deriving Repr

/-- The body of the `for tree in retrieve_iteration_tree(nodes,
mode='superset')` loop of `_create_efuncs`, for one chain: find the
outermost tagged Iteration (`filter_iterations(..., 'asap')`, whose
first element the source takes), require it elementizable, slice the
chain from it, rebuild the slice with free bounds, collect array
casts, and derive the callable's arguments and parameters. -/
def processChain (c : List INode) : Option ChainResult :=
  match c.find? (fun n => (tagOf n).isSome) with
  | none => none
  | some root =>
    if elementizableOf root then
      match root with
      | .iter d b =>
        match d.tag with
        | some tg =>
          let idx := c.findIdx (fun n => nidOf n == d.nid)
          let target := c.drop idx
          let bf := buildFree target
          let free := visitNested bf.2 (isize (INode.iter d b)) (INode.iter d b)
          let casts := ((dedupStr (tensorRefs free)).filter
            (fun t => ¬ t ∈ boundNames free)).map INode.cast
          let free2 := INode.seq false [INode.seq false casts, free]
          let aps := elemArgs bf.1 (deriveParameters free2)
          some { rootNid := d.nid,
                 name := "f_" ++ toString tg,
                 definedArgs := bf.1,
                 target := target,
                 freeBody := free2,
                 callArgs := aps.map Prod.fst,
                 parameters := aps.map Prod.snd }
        | none => none
      | _ => none
    else none

/-- A registered elemental Callable. -/
structure ECallable where
  name : String
  body : INode
  retval : String
  parameters : List PSym
deriving Repr

/-- Lookup in the `functions` OrderedDict. -/
def lookupF (fs : List (String × ECallable)) (k : String) : Option ECallable :=
  match fs.find? (fun p => p.1 == k) with
  | some p => some p.2
  | none => none

/-- `functions.setdefault(name, callable)`: keep the existing entry if
the name is already registered. -/
def setdefaultF (fs : List (String × ECallable)) (k : String) (v : ECallable) :
    List (String × ECallable) :=
  if (lookupF fs k).isSome then fs else fs ++ [(k, v)]

/-- `mapper[root] = ...`: dictionary assignment (overwrite if present). -/
def setAssocN (m : List (Nat × INode)) (k : Nat) (v : INode) :
    List (Nat × INode) :=
  if (lookupN m k).isSome then
    m.map (fun p => if p.1 == k then (k, v) else p)
  else m ++ [(k, v)]

/-- The `mapper` and `functions` accumulated by `_create_efuncs` over
all chains: per eligible chain, the root is mapped to
`List(header=noinline, body=Call(name, call))` (the noinline
decoration is always present) and the callable is registered with
`setdefault`. -/
def efuncsState (nodes : INode) : List (Nat × INode) × List (String × ECallable) :=
  (iterChains nodes).foldl
    (fun st c =>
      match processChain c with
      | none => st
      | some r =>
        (setAssocN st.1 r.rootNid (INode.seq true [INode.callI r.name r.callArgs]),
         setdefaultF st.2 r.name ⟨r.name, r.freeBody, "void", r.parameters⟩))
    ([], [])

/-- Embedding of `BasicRewriter._create_efuncs(nodes, state)`: the
transformed main tree plus the registered elemental functions. -/
def create_efuncs (nodes : INode) : INode × List (String × ECallable) :=
  let st := efuncsState nodes
  (visitPlain st.1 nodes, st.2)

/-! ## Section 4: device offloading (devito/targets/gpu.py)

`OffloadingOmpizer._make_partree` and `OffloadingOmpizer.make_simd`
operate on Iterations carrying property sets and pragma lists; the
node model keeps exactly those.  Identity handles play the same role
as in Section 3. -/

/-- An Iteration property (devito/ir/iet): `VECTOR` marks
vectorizability, `COLLAPSED(n)` a collapsed nest. -/
inductive GProp where
  | vector
  | parallel
  | collapsed (n : Nat)
  | other (s : String)
deriving DecidableEq, Repr

/-- The device-offload parallel-for pragma of the `lang` table:
`omp target teams distribute parallel for collapse(%d)`. -/
def par_for_teams (i : Nat) : String :=
  "omp target teams distribute parallel for collapse(" ++ toString i ++ ")"

/-- An IET node as seen by the device parallelizer. -/
inductive GNode where
  | expr
  | iter (nid : Nat) (body : List GNode) (props : List GProp) (pragmas : List String)
  | seq (body : List GNode)
deriving Repr

mutual

/-- `FindNodes(Iteration).visit(iet)`: all Iterations, preorder. -/
def findIters : GNode → List GNode
  | .iter nid b props prag => .iter nid b props prag :: findItersL b
  | .seq b => findItersL b
  | .expr => []

/-- `findIters` over a node list. -/
def findItersL : List GNode → List GNode
  | [] => []
  | n :: ns => findIters n ++ findItersL ns

end

/-- The identity handle of a device-side node. -/
def gnidOf : GNode → Nat
  | .iter nid _ _ _ => nid
  | _ => 0

/-- Lookup in a handle-keyed replacement map over device-side nodes. -/
def lookupGN (m : List (Nat × GNode)) (k : Nat) : Option GNode :=
  match m.find? (fun p => p.1 == k) with
  | some p => some p.2
  | none => none

mutual

/-- Modelled from the spec: `Transformer(mapper).visit` (non-nested)
over device-side nodes; see `visitPlain`. -/
def gvisitPlain (m : List (Nat × GNode)) : GNode → GNode
  | .iter nid b props prag =>
    match lookupGN m nid with
    | some r => r
    | none => .iter nid (gvisitPlainL m b) props prag
  | .seq b => .seq (gvisitPlainL m b)
  | .expr => .expr

/-- `gvisitPlain` over a node list. -/
def gvisitPlainL (m : List (Nat × GNode)) : List GNode → List GNode
  | [] => []
  | n :: ns => gvisitPlain m n :: gvisitPlainL m ns

end

/-- The replacement map built by `OffloadingOmpizer.make_simd`: each
vectorizable Iteration is rebuilt with
`properties = [p for p in i.properties if p is not VECTOR]`. -/
def simdMapper (iet : GNode) : List (Nat × GNode) :=
  (findIters iet).filterMap (fun n =>
    match n with
    | .iter nid b props prag =>
      if GProp.vector ∈ props then
        some (nid, GNode.iter nid b (props.filter (fun p => ¬ p = .vector)) prag)
      else none
    | _ => none)

/-- Embedding of `OffloadingOmpizer.make_simd(iet)`: no SIMD-ization
for devices; drop the VECTOR property instead. -/
def make_simd (iet : GNode) : GNode :=
  gvisitPlain (simdMapper iet) iet

/-- Modelled from the spec: `Ompizer._find_collapsable(root,
candidates)` (devito/targets/common, not under src/).  The device
variant sets `COLLAPSE_NCORES = 1` and `COLLAPSE_WORK = 1` ("always
collapse when possible"), so the cost heuristic is disabled and every
nested candidate below the root is collapsable. -/
def find_collapsable (r0 : GNode) (candidates : List GNode) : List GNode :=
  candidates.drop 1

/-- Embedding of `OffloadingOmpizer._make_partree(candidates)`: attach
one `par-for-teams` pragma with the collapse degree
`1 + len(collapsable)` to the root, add `COLLAPSED(ncollapse)` to its
properties, and wrap in a `ParallelTree` (modelled as a one-element
sequence, its prefix being empty). -/
def make_partree (candidates : List GNode) :
    Option (GNode × GNode × List GNode) :=
  match candidates with
  | [] => none
  | root :: _ =>
    let collapsable := find_collapsable root candidates
    let ncollapse := 1 + collapsable.length
    let omp_pragma := par_for_teams ncollapse
    match root with
    | .iter nid b props prag =>
      let body := GNode.iter nid b (props ++ [.collapsed ncollapse])
        (prag ++ [omp_pragma])
      let partree := GNode.seq [body]
      some (root, partree, partree :: collapsable)
    | _ => none

/-! ## Classifiers and evaluators used by the theorems. -/

/-- Whether a routine-body operation is a Conditional. -/
def isCondNode : MNode → Bool
  | .cond _ _ _ => true
  | _ => false

/-- Runtime value of a guard operand under an environment assigning an
integer rank value to every symbol and macro name.  The guards built
by this generator only ever hold a `sym` or a `mac`. -/
def evalGuardArg (env : String → Int) : MArg → Int
  | .sym n => env n
  | .mac n => env n
  | _ => 0

/-- Runtime value of a `CondNe(lhs, rhs)` guard: the wrapped body runs
iff the operands differ. -/
def condNeEval (env : String → Int) (l r : MArg) : Bool :=
  decide (evalGuardArg env l ≠ evalGuardArg env r)

/-- Whether a generated routine is the gather copy routine. -/
def isGatherR : Routine → Bool
  | .gatherR _ => true
  | _ => false

/-- Whether a generated routine is the scatter copy routine. -/
def isScatterR : Routine → Bool
  | .scatterR _ => true
  | _ => false

/-- Whether a generated routine is the send/receive orchestrator. -/
def isSendrecvR : Routine → Bool
  | .sendrecvR _ => true
  | _ => false

/-- Whether a generated routine is a halo-update routine. -/
def isHaloupdateR : Routine → Bool
  | .haloupdateR _ => true
  | _ => false

/-- Whether any Iteration of a device-side tree still carries the
VECTOR property. -/
def anyVector (iet : GNode) : Bool :=
  (findIters iet).any (fun n =>
    match n with
    | .iter _ _ props _ => props.contains GProp.vector
    | _ => false)

/-- The properties of a device-side node (empty on non-Iterations). -/
def gpropsOf : GNode → List GProp
  | .iter _ _ props _ => props
  | _ => []

/-- The pragmas of a device-side node (empty on non-Iterations). -/
def gpragmasOf : GNode → List String
  | .iter _ _ _ prag => prag
  | _ => []

/-- The callables produced by the chains of a tree, in chain order,
before `setdefault` deduplication. -/
def producedCallables (nodes : INode) : List (String × ECallable) :=
  (iterChains nodes).filterMap (fun c =>
    (processChain c).map (fun r =>
      (r.name, (⟨r.name, r.freeBody, "void", r.parameters⟩ : ECallable))))

/-- The mapper entries produced by the chains of a tree, in chain
order, before dictionary assignment. -/
def producedMapper (nodes : INode) : List (Nat × INode) :=
  (iterChains nodes).filterMap (fun c =>
    (processChain c).map (fun r =>
      (r.rootNid, INode.seq true [INode.callI r.name r.callArgs])))

/-- The argument count of the call stored in a replacement map under a
handle (none when the handle is unmapped or not call-shaped). -/
def mapperCallArgsLen (m : List (Nat × INode)) (k : Nat) : Option Nat :=
  match lookupN m k with
  | some (.seq _ [.callI _ args]) => some args.length
  | _ => none

/-- The opposite data side. -/
def oppSide : Side → Side
  | .left => .right
  | .right => .left

/-- The first peer letter of an exchange: sending left goes to the
`r`-neighbor lookup first, sending right to the `l`-neighbor. -/
def peerFst : Side → String
  | .left => "r"
  | .right => "l"

/-- The second peer letter of an exchange (the destination side). -/
def peerSnd : Side → String
  | .left => "l"
  | .right => "r"

/-- A mask pattern (the spec-level dedup component of a haloupdate key). -/
abbrev Mask := List ((String × Side) × Bool)

/-- The `generated`/`extra` state evolution of `HaloExchangeBuilder.make`
over a flat run of fmapper entries. -/
def genFold (threaded : Bool) (entries : List FEntry) (st : MakeState) :
    MakeState :=
  entries.foldl (fun a e => (makeEntry threaded a e).1) st

/-- Insertion-ordered accumulation of the distinct masks seen so far. -/
def seenFold (seen : List Mask) (masks : List Mask) : List Mask :=
  masks.foldl (fun s m => if m ∈ s then s else s ++ [m]) seen

/-- Shape of the value stored under a rank key: one gather, one
scatter, one sendrecv. -/
def isRankVal : List Routine → Bool
  | [.gatherR _, .scatterR _, .sendrecvR _] => true
  | _ => false

/-- Shape of the value stored under a `(rank, mask)` key: one
haloupdate. -/
def isMaskVal : List Routine → Bool
  | [.haloupdateR _] => true
  | _ => false

/-! ## Theorems -/

/-- Invariant of the `generated` dict after at least one entry of rank
`n` was processed: a rank-`n` head holding gather/scatter/sendrecv,
then one `(n, mask)` entry per seen mask, in first-seen order. -/
def InvP (n : Nat) (st : MakeState) (seen : List Mask) : Prop :=
  ∃ hd tl, st.generated = hd :: tl ∧ hd.1 = GKey.rank n ∧
    isRankVal hd.2 = true ∧
    tl.map Prod.fst = seen.map (GKey.rankMask n) ∧
    (∀ p ∈ tl, isMaskVal p.2 = true)

lemma lookupG_isSome (g : List (GKey × List Routine)) (k : GKey) :
    (lookupG g k).isSome ↔ k ∈ g.map Prod.fst := by
  induction g with
  | nil => simp [lookupG]
  | cons p g ih =>
    by_cases h : p.1 = k
    · simp [lookupG, List.find?, h]
    · have hne : (p.1 == k) = false := by simpa using h
      simp only [lookupG, List.find?, hne, List.map_cons, List.mem_cons]
      rw [← lookupG]
      rw [ih]
      constructor
      · exact Or.inr
      · rintro (rfl | hk)
        · exact absurd rfl h
        · exact hk

lemma makeEntry_inv (threaded : Bool) (n : Nat) (e : FEntry) (he : e.ndim = n)
    (st : MakeState) (seen : List Mask) (h : InvP n st seen) :
    InvP n (makeEntry threaded st e).1
      (if e.mask ∈ seen then seen else seen ++ [e.mask]) := by
  obtain ⟨hd, tl, hg, hk, hv, htl, hmv⟩ := h
  have hrank : (lookupG st.generated (GKey.rank e.ndim)).isSome := by
    rw [lookupG_isSome, hg, he]
    simp [hk.symm]
  have hmask : (lookupG st.generated (GKey.rankMask e.ndim e.mask)).isSome
      ↔ e.mask ∈ seen := by
    rw [lookupG_isSome, hg, he]
    simp only [List.map_cons, List.mem_cons, hk, htl]
    constructor
    · rintro (hc | hc)
      · exact absurd hc (by simp)
      · rcases List.mem_map.1 hc with ⟨m, hm, hmeq⟩
        obtain ⟨_, rfl⟩ := GKey.rankMask.inj hmeq.symm
        exact hm
    · intro hm
      exact Or.inr (List.mem_map.2 ⟨e.mask, hm, rfl⟩)
  by_cases hin : e.mask ∈ seen
  · rw [if_pos hin]
    refine ⟨hd, tl, ?_, hk, hv, htl, hmv⟩
    simp only [makeEntry, if_pos hrank, if_pos (hmask.2 hin)]
    exact hg
  · rw [if_neg hin]
    have hnone : ¬ (lookupG st.generated (GKey.rankMask e.ndim e.mask)).isSome :=
      fun hs => hin (hmask.1 hs)
    refine ⟨hd, tl ++ [(GKey.rankMask n e.mask,
      [Routine.haloupdateR (make_haloupdate e.dims e.locKeys e.distDims
        e.maskFun st.extra (countTupleKeys st.generated))])], ?_, hk, hv, ?_, ?_⟩
    · simp only [makeEntry, if_pos hrank, if_neg hnone]
      rw [hg, he]
      rfl
    · simp [htl]
    · intro p hp
      rcases List.mem_append.1 hp with hp | hp
      · exact hmv p hp
      · simp only [List.mem_singleton] at hp
        subst hp
        rfl

lemma makeEntry_base (threaded : Bool) (e0 : FEntry) :
    InvP e0.ndim (makeEntry threaded ⟨[], []⟩ e0).1 [e0.mask] := by
  refine ⟨(GKey.rank e0.ndim,
      [Routine.gatherR (make_copy e0.dims e0.locKeys threaded false).1,
       Routine.scatterR (make_copy e0.dims e0.locKeys threaded true).1,
       Routine.sendrecvR (make_sendrecv e0.dims e0.locKeys
         (dtype_to_mpitype e0.dtype) (make_copy e0.dims e0.locKeys threaded false).2)]),
    [(GKey.rankMask e0.ndim e0.mask,
      [Routine.haloupdateR (make_haloupdate e0.dims e0.locKeys e0.distDims
        e0.maskFun (make_copy e0.dims e0.locKeys threaded false).2 0)])],
    ?_, rfl, rfl, rfl, ?_⟩
  · rfl
  · intro p hp
    simp only [List.mem_singleton] at hp
    subst hp
    rfl

lemma genFold_inv (threaded : Bool) (n : Nat) (entries : List FEntry)
    (he : ∀ e ∈ entries, e.ndim = n) (st : MakeState) (seen : List Mask)
    (h : InvP n st seen) :
    InvP n (genFold threaded entries st)
      (seenFold seen (entries.map FEntry.mask)) := by
  induction entries generalizing st seen with
  | nil => exact h
  | cons e es ih =>
    have h1 := makeEntry_inv threaded n e (he e (by simp)) st seen h
    have h2 := ih (fun x hx => he x (by simp [hx])) _ _ h1
    simpa [genFold, seenFold] using h2

lemma seenFold_nodup (ms : List Mask) (seen : List Mask) (h : seen.Nodup) :
    (seenFold seen ms).Nodup := by
  induction ms generalizing seen with
  | nil => exact h
  | cons m ms ih =>
    simp only [seenFold, List.foldl_cons]
    by_cases hm : m ∈ seen
    · rw [if_pos hm]
      exact ih seen h
    · rw [if_neg hm]
      refine ih _ ?_
      rw [← List.concat_eq_append]
      exact List.Nodup.concat hm h

lemma seenFold_toFinset (ms : List Mask) (seen : List Mask) :
    (seenFold seen ms).toFinset = seen.toFinset ∪ ms.toFinset := by
  induction ms generalizing seen with
  | nil => simp [seenFold]
  | cons m ms ih =>
    simp only [seenFold, List.foldl_cons]
    by_cases hm : m ∈ seen
    · rw [if_pos hm]
      have := ih seen
      rw [seenFold] at this
      rw [this]
      ext x
      simp only [Finset.mem_union, List.mem_toFinset, List.toFinset_cons,
        Finset.mem_insert]
      constructor
      · rintro (hx | hx)
        · exact Or.inl hx
        · exact Or.inr (Or.inr hx)
      · rintro (hx | rfl | hx)
        · exact Or.inl hx
        · exact Or.inl hm
        · exact Or.inr hx
    · rw [if_neg hm]
      have := ih (seen ++ [m])
      rw [seenFold] at this
      rw [this]
      ext x
      simp only [Finset.mem_union, List.mem_toFinset, List.toFinset_cons,
        Finset.mem_insert, List.mem_append, List.mem_singleton]
      tauto

lemma rankVal_counts (v : List Routine) (h : isRankVal v = true) :
    v.countP isGatherR = 1 ∧ v.countP isScatterR = 1 ∧
    v.countP isSendrecvR = 1 ∧ v.countP isHaloupdateR = 0 := by
  unfold isRankVal at h
  split at h
  · simp [List.countP_cons, isGatherR, isScatterR, isSendrecvR, isHaloupdateR]
  · exact absurd h (by simp)

lemma maskVal_counts (v : List Routine) (h : isMaskVal v = true) :
    v.countP isGatherR = 0 ∧ v.countP isScatterR = 0 ∧
    v.countP isSendrecvR = 0 ∧ v.countP isHaloupdateR = 1 := by
  unfold isMaskVal at h
  split at h
  · simp [List.countP_cons, isGatherR, isScatterR, isSendrecvR, isHaloupdateR]
  · exact absurd h (by simp)

lemma maskVals_counts (tl : List (GKey × List Routine))
    (h : ∀ p ∈ tl, isMaskVal p.2 = true) :
    ((tl.map Prod.snd).flatten.countP isGatherR = 0) ∧
    ((tl.map Prod.snd).flatten.countP isScatterR = 0) ∧
    ((tl.map Prod.snd).flatten.countP isSendrecvR = 0) ∧
    ((tl.map Prod.snd).flatten.countP isHaloupdateR = tl.length) := by
  induction tl with
  | nil => simp
  | cons p tl ih =>
    have hp := maskVal_counts p.2 (h p (by simp))
    have ht := ih (fun q hq => h q (by simp [hq]))
    simp only [List.map_cons, List.flatten_cons, List.countP_append,
      List.length_cons]
    refine ⟨?_, ?_, ?_, ?_⟩ <;> omega

lemma inner_fold_fst (threaded : Bool) (hs : List FEntry)
    (st : MakeState) (cs : List MNode) :
    (hs.foldl (fun (a : MakeState × List MNode) e =>
        let q := makeEntry threaded a.1 e
        (q.1, a.2 ++ [q.2])) (st, cs)).1 = genFold threaded hs st := by
  induction hs generalizing st cs with
  | nil => rfl
  | cons e es ih =>
    simp only [List.foldl_cons, genFold]
    exact ih _ _

lemma make_fst_eq_genFold (threaded : Bool) (spots : List (List FEntry)) :
    (make threaded spots).1 =
      ((genFold threaded spots.flatten ⟨[], []⟩).generated.map Prod.snd).flatten := by
  suffices h : ∀ (sp : List (List FEntry)) (st : MakeState) (acc : List (List MNode)),
      (sp.foldl (fun (a : MakeState × List (List MNode)) hs =>
          let r := hs.foldl (fun (b : MakeState × List MNode) e =>
            let q := makeEntry threaded b.1 e
            (q.1, b.2 ++ [q.2])) (a.1, [])
          (r.1, a.2 ++ [r.2])) (st, acc)).1 = genFold threaded sp.flatten st by
    rw [make]
    rw [h spots ⟨[], []⟩ []]
  intro sp
  induction sp with
  | nil => intro st acc; rfl
  | cons hs sp ih =>
    intro st acc
    simp only [List.foldl_cons, List.flatten_cons]
    rw [ih]
    rw [show genFold threaded (hs ++ sp.flatten) st
        = genFold threaded sp.flatten (genFold threaded hs st) from by
      rw [genFold, genFold, genFold, List.foldl_append]]
    congr 1
    exact inner_fold_fst threaded hs st []

lemma hu_call_form (dims fixed distDims : List String) (extra : List MArg)
    (d : String) (s : Side) :
    hu_call dims fixed distDims extra d s =
      MNode.call ("sendrecv" ++ toString dims.length ++ "d")
        ([MArg.sym "a"] ++ hu_sizes dims fixed d s .owned
          ++ hu_offsets dims fixed d s .owned
          ++ hu_offsets dims fixed d (oppSide s) .halo
          ++ [peer distDims d (peerFst s), peer distDims d (peerSnd s),
              MArg.sym "comm"]
          ++ extra) := by
  cases s <;> rfl

lemma hu_call_inj (dims fixed distDims : List String) (extra : List MArg)
    (d d' : String) (s s' : Side)
    (hd : d ∈ dims.filter (fun x => ¬ x ∈ fixed)) :
    hu_call dims fixed distDims extra d s = hu_call dims fixed distDims extra d' s' →
    d' = d ∧ s' = s := by
  intro h
  rw [hu_call_form, hu_call_form] at h
  simp only [MNode.call.injEq, List.cons_append, List.nil_append,
    List.append_assoc, List.cons.injEq, true_and] at h
  have hsz : hu_sizes dims fixed d s .owned = hu_sizes dims fixed d' s' .owned := by
    have hlen : (hu_sizes dims fixed d s Region.owned).length
        = (hu_sizes dims fixed d' s' Region.owned).length := by
      simp [hu_sizes]
    exact (List.append_inj h hlen).1
  simp only [hu_sizes] at hsz
  rw [List.map_inj_left] at hsz
  have := hsz d hd
  simp only [if_pos rfl] at this
  by_cases hdd : d' = d
  · subst hdd
    simp only [if_pos rfl, MArg.fieldSize.injEq] at this
    exact ⟨rfl, this.2.2.symm⟩
  · rw [if_neg hdd] at this
    simp [MArg.fieldSize.injEq] at this

/-- C1, counterexample.  The claim states that in every generated
sendrecv body the non-blocking send is "wrapped in a conditional".  At
rank 1 (and in fact at every rank) the third operation of the body is
the bare `MPI_Isend` Call — only the gather (index 1) and the scatter
(index 5) are Conditionals. -/
theorem c1_counterexample :
    ((make_sendrecv ["x"] [] "MPI_FLOAT" []).body.map isCondNode)
      = [false, true, false, false, false, true] ∧
    (make_sendrecv ["x"] [] "MPI_FLOAT" []).body[2]?
      = some (MNode.call "MPI_Isend"
          [.sym "bufg", .prodSizes ["buf_x"], .mac "MPI_FLOAT", .sym "torank",
           .intLit 13, .sym "comm", .sym "rsend"]) := by
  exact ⟨rfl, rfl⟩

/-- C1, amended.  For every array rank the sendrecv body consists of
exactly six operations in this order: a non-blocking receive
(MPI_Irecv), a gather call wrapped in a conditional, a non-blocking
send (MPI_Isend) NOT wrapped in a conditional, a wait on the send
request, a wait on the receive request, and a scatter call wrapped in
a conditional. -/
theorem c1_amended (dims fixed : List String) (mpitype : String)
    (extra : List MArg) :
    ∃ gargs sargs count,
      (make_sendrecv dims fixed mpitype extra).body =
        [MNode.call "MPI_Irecv"
           [.sym "bufs", count, .mac mpitype, .sym "fromrank", .intLit 13,
            .sym "comm", .sym "rrecv"],
         MNode.cond (.sym "torank") (.mac "MPI_PROC_NULL")
           (MNode.call ("gather" ++ toString dims.length ++ "d") gargs),
         MNode.call "MPI_Isend"
           [.sym "bufg", count, .mac mpitype, .sym "torank", .intLit 13,
            .sym "comm", .sym "rsend"],
         MNode.call "MPI_Wait" [.sym "rsend", .sym "ssend"],
         MNode.call "MPI_Wait" [.sym "rrecv", .sym "srecv"],
         MNode.cond (.sym "fromrank") (.mac "MPI_PROC_NULL")
           (MNode.call ("scatter" ++ toString dims.length ++ "d") sargs)] := by
  exact ⟨_, _, _, rfl⟩

/-- C6.  In every generated sendrecv routine the gather is wrapped in
a conditional `CondNe(torank, MPI_PROC_NULL)` and the scatter in a
conditional `CondNe(fromrank, MPI_PROC_NULL)`; per direction, whenever
that direction's rank symbol holds the null-rank sentinel's value, its
guard evaluates to false — independently of the other direction — so
no gather or scatter is performed toward a domain boundary even in a
mixed neighborhood with one null and one real neighbor. -/
theorem c6_boundary_guards (dims fixed : List String) (mpitype : String)
    (extra : List MArg) (env : String → Int) :
    (∃ gargs, (make_sendrecv dims fixed mpitype extra).body[1]? =
       some (MNode.cond (.sym "torank") (.mac "MPI_PROC_NULL")
         (MNode.call ("gather" ++ toString dims.length ++ "d") gargs))) ∧
    (∃ sargs, (make_sendrecv dims fixed mpitype extra).body[5]? =
       some (MNode.cond (.sym "fromrank") (.mac "MPI_PROC_NULL")
         (MNode.call ("scatter" ++ toString dims.length ++ "d") sargs))) ∧
    (env "torank" = env "MPI_PROC_NULL" →
      condNeEval env (.sym "torank") (.mac "MPI_PROC_NULL") = false) ∧
    (env "fromrank" = env "MPI_PROC_NULL" →
      condNeEval env (.sym "fromrank") (.mac "MPI_PROC_NULL") = false) := by
  refine ⟨⟨_, rfl⟩, ⟨_, rfl⟩, ?_, ?_⟩
  · intro hto
    simp [condNeEval, evalGuardArg, hto]
  · intro hfrom
    simp [condNeEval, evalGuardArg, hfrom]

/-- C6, witness: a mixed neighborhood — destination at the domain
boundary (`torank` holds the sentinel's value 0) while the source is a
real neighbor (`fromrank` holds rank 1): the gather guard evaluates to
false while the scatter guard stays true. -/
theorem c6_boundary_guards_witness :
    ((fun n => if n = "fromrank" then (1 : Int) else 0) "torank"
      = (fun n => if n = "fromrank" then (1 : Int) else 0) "MPI_PROC_NULL") ∧
    condNeEval (fun n => if n = "fromrank" then (1 : Int) else 0)
      (.sym "torank") (.mac "MPI_PROC_NULL") = false ∧
    condNeEval (fun n => if n = "fromrank" then (1 : Int) else 0)
      (.sym "fromrank") (.mac "MPI_PROC_NULL") = true :=
  ⟨by decide,
   (c6_boundary_guards ["x"] [] "MPI_FLOAT" []
     (fun n => if n = "fromrank" then (1 : Int) else 0)).2.2.1 (by decide),
   by decide⟩

/-- C3.  For every run of `HaloExchangeBuilder.make` over halo spots
whose fmapper entries all have rank `n` (at least one entry), the
output routine list holds exactly one gather, one scatter, one
sendrecv, and exactly one haloupdate per distinct mask pattern —
independent of the number of halo spots and entries. -/
theorem c3_dedup_invariant (threaded : Bool) (spots : List (List FEntry))
    (n : Nat) (hne : spots.flatten ≠ [])
    (hn : ∀ e ∈ spots.flatten, e.ndim = n) :
    (make threaded spots).1.countP isGatherR = 1 ∧
    (make threaded spots).1.countP isScatterR = 1 ∧
    (make threaded spots).1.countP isSendrecvR = 1 ∧
    (make threaded spots).1.countP isHaloupdateR =
      ((spots.flatten.map FEntry.mask).dedup).length := by
  rw [make_fst_eq_genFold]
  rcases hE : spots.flatten with _ | ⟨e0, rest⟩
  · exact absurd hE hne
  rw [hE] at hn
  have hbase := makeEntry_base threaded e0
  have he0 : e0.ndim = n := hn e0 (by simp)
  rw [he0] at hbase
  have hinv := genFold_inv threaded n rest (fun x hx => hn x (by simp [hx]))
    _ _ hbase
  have hg : genFold threaded (e0 :: rest) ⟨[], []⟩
      = genFold threaded rest (makeEntry threaded ⟨[], []⟩ e0).1 := by
    rw [genFold, genFold, List.foldl_cons]
  rw [hg]
  obtain ⟨hd, tl, hgen, hk, hv, htl, hmv⟩ := hinv
  rw [hgen]
  simp only [List.map_cons, List.flatten_cons, List.countP_append]
  have h1 := rankVal_counts hd.2 hv
  have h2 := maskVals_counts tl hmv
  have hlen : tl.length = (seenFold [e0.mask] (rest.map FEntry.mask)).length := by
    have := congrArg List.length htl
    simpa using this
  have hnodup : (seenFold [e0.mask] (rest.map FEntry.mask)).Nodup :=
    seenFold_nodup _ _ (by simp)
  have hculm : (seenFold [e0.mask] (rest.map FEntry.mask)).length
      = (((e0 :: rest).map FEntry.mask).dedup).length := by
    rw [← List.toFinset_card_of_nodup hnodup]
    rw [← List.card_toFinset]
    congr 1
    rw [seenFold_toFinset]
    ext x
    simp
  obtain ⟨g1, g2, g3, g4⟩ := h1
  obtain ⟨m1, m2, m3, m4⟩ := h2
  simp only [List.map_cons] at hculm
  refine ⟨by omega, by omega, by omega, by omega⟩

/-- C3, witness: one halo spot with two rank-1 entries carrying two
distinct masks yields counts (1, 1, 1, 2). -/
theorem c3_dedup_invariant_witness :
    (([[⟨"u", ["x"], ["x"], "float32", [],
          [(("x", Side.left), true), (("x", Side.right), false)]⟩,
        ⟨"v", ["x"], ["x"], "float32", [],
          [(("x", Side.left), false), (("x", Side.right), true)]⟩]] :
        List (List FEntry)).flatten ≠ []) ∧
    (make false [[⟨"u", ["x"], ["x"], "float32", [],
          [(("x", Side.left), true), (("x", Side.right), false)]⟩,
        ⟨"v", ["x"], ["x"], "float32", [],
          [(("x", Side.left), false), (("x", Side.right), true)]⟩]]).1.countP
      isHaloupdateR =
      ((([[⟨"u", ["x"], ["x"], "float32", [],
          [(("x", Side.left), true), (("x", Side.right), false)]⟩,
        ⟨"v", ["x"], ["x"], "float32", [],
          [(("x", Side.left), false), (("x", Side.right), true)]⟩]] :
        List (List FEntry)).flatten.map FEntry.mask).dedup).length :=
  ⟨by decide,
   (c3_dedup_invariant false _ 1 (by decide) (by decide)).2.2.2⟩

/-- C7, counterexample.  The claim asserts that after `make_simd` no
iteration of a 3-deep nest retains the VECTOR property.  When a
vectorizable iteration nests inside another vectorizable one, the
non-nested rewrite replaces the outer iteration and does not descend
into the replacement, so the inner iteration keeps VECTOR. -/
theorem c7_counterexample :
    anyVector (make_simd (GNode.iter 1
      [GNode.iter 2 [GNode.iter 3 [GNode.expr] [GProp.vector] []] [] []]
      [GProp.vector] [])) = true := by
  rfl

/-- C7, amended.  Under the device backend a 3-candidate nest receives
exactly one `omp target teams distribute parallel for` directive of
collapse degree 3 together with the COLLAPSED(3) property (the cost
heuristic being disabled); and `make_simd` on a 3-deep perfect nest
strips VECTOR from every iteration, leaving every other property
unchanged — provided no vectorizable iteration nests inside another
vectorizable one (VECTOR may sit on the outer, the middle, the
innermost, or none, just not on two nested levels at once). -/
theorem c7_amended (b1 : List GNode) (p1 p2 p3 : List GProp)
    (g2 g3 : List String) (i2 i3 : GNode)
    (h12 : ¬ (GProp.vector ∈ p1 ∧ GProp.vector ∈ p2))
    (h13 : ¬ (GProp.vector ∈ p1 ∧ GProp.vector ∈ p3))
    (h23 : ¬ (GProp.vector ∈ p2 ∧ GProp.vector ∈ p3)) :
    (make_partree [GNode.iter 1 b1 p1 [], i2, i3] =
      some (GNode.iter 1 b1 p1 [],
            GNode.seq [GNode.iter 1 b1 (p1 ++ [.collapsed 3]) [par_for_teams 3]],
            [GNode.seq [GNode.iter 1 b1 (p1 ++ [.collapsed 3])
              [par_for_teams 3]], i2, i3])) ∧
    (make_simd (GNode.iter 1 [GNode.iter 2
        [GNode.iter 3 [GNode.expr] p3 g3] p2 g2] p1 []) =
      GNode.iter 1 [GNode.iter 2
        [GNode.iter 3 [GNode.expr]
            (p3.filter (fun p => ¬ p = GProp.vector)) g3]
          (p2.filter (fun p => ¬ p = GProp.vector)) g2]
        (p1.filter (fun p => ¬ p = GProp.vector)) []) ∧
    ¬ GProp.vector ∈ p1.filter (fun p => ¬ p = GProp.vector) ∧
    ¬ GProp.vector ∈ p2.filter (fun p => ¬ p = GProp.vector) ∧
    ¬ GProp.vector ∈ p3.filter (fun p => ¬ p = GProp.vector) := by
  have hfe : ∀ (p : List GProp), ¬ GProp.vector ∈ p →
      p.filter (fun q => ¬ q = GProp.vector) = p := fun p hp =>
    List.filter_eq_self.2 (fun a ha => by
      simp only [decide_eq_true_eq]
      intro hh
      exact hp (hh ▸ ha))
  refine ⟨rfl, ?_, by simp, by simp, by simp⟩
  by_cases hv1 : GProp.vector ∈ p1 <;> by_cases hv2 : GProp.vector ∈ p2 <;>
    by_cases hv3 : GProp.vector ∈ p3
  · exact absurd ⟨hv1, hv2⟩ h12
  · exact absurd ⟨hv1, hv2⟩ h12
  · exact absurd ⟨hv1, hv3⟩ h13
  · -- VECTOR on the outer iteration only
    rw [hfe p2 hv2, hfe p3 hv3]
    simp only [make_simd, simdMapper, findIters, findItersL, List.append_nil,
      List.nil_append, List.filterMap_cons, if_pos hv1, if_neg hv2, if_neg hv3,
      List.filterMap_nil, gvisitPlain, gvisitPlainL, lookupGN, List.find?]
    rfl
  · exact absurd ⟨hv2, hv3⟩ h23
  · -- VECTOR on the middle iteration only
    rw [hfe p1 hv1, hfe p3 hv3]
    simp only [make_simd, simdMapper, findIters, findItersL, List.append_nil,
      List.nil_append, List.filterMap_cons, if_neg hv1, if_pos hv2, if_neg hv3,
      List.filterMap_nil, gvisitPlain, gvisitPlainL, lookupGN, List.find?]
    rfl
  · -- VECTOR on the innermost iteration only
    rw [hfe p1 hv1, hfe p2 hv2]
    simp only [make_simd, simdMapper, findIters, findItersL, List.append_nil,
      List.nil_append, List.filterMap_cons, if_neg hv1, if_neg hv2, if_pos hv3,
      List.filterMap_nil, gvisitPlain, gvisitPlainL, lookupGN, List.find?]
    rfl
  · -- no VECTOR anywhere
    rw [hfe p1 hv1, hfe p2 hv2, hfe p3 hv3]
    simp only [make_simd, simdMapper, findIters, findItersL, List.append_nil,
      List.nil_append, List.filterMap_cons, if_neg hv1, if_neg hv2, if_neg hv3,
      List.filterMap_nil, gvisitPlain, gvisitPlainL, lookupGN, List.find?]

/-- C7, witness: with VECTOR on the outermost iteration only — a
configuration satisfying the no-nested-VECTOR proviso — the outer
VECTOR is stripped and the nest is otherwise unchanged. -/
theorem c7_amended_witness :
    (¬ (GProp.vector ∈ [GProp.vector] ∧ GProp.vector ∈ ([] : List GProp))) ∧
    make_simd (GNode.iter 1 [GNode.iter 2
        [GNode.iter 3 [GNode.expr] [] []] [] []] [GProp.vector] []) =
      GNode.iter 1 [GNode.iter 2
        [GNode.iter 3 [GNode.expr]
            (([] : List GProp).filter (fun p => ¬ p = GProp.vector)) []]
          (([] : List GProp).filter (fun p => ¬ p = GProp.vector)) []]
        ([GProp.vector].filter (fun p => ¬ p = GProp.vector)) [] :=
  ⟨by simp,
   (c7_amended [] [GProp.vector] [] [] [] [] GNode.expr GNode.expr
     (by simp) (by simp) (by simp)).2.1⟩

/-- C8.  In every generated haloupdate body a per-(dimension, side)
sendrecv call appears iff that mask flag is set (membership iff, and
the body size equals the number of set flags over the non-fixed
dimensions); and the 2-D halo spot with mask
`{x: left=true, right=true; y: left=false, right=false}` yields
exactly 2 sendrecv calls, both for dimension `x`, each with the
owned-region sizes/offsets of its side as source and the halo-region
offsets of the opposite side as destination. -/
theorem c8_haloupdate_emission (dims fixed distDims : List String)
    (mask : String → Side → Bool) (extra : List MArg) (uk : Nat)
    (d : String) (s : Side)
    (hd : d ∈ dims.filter (fun x => ¬ x ∈ fixed)) :
    ((make_haloupdate dims fixed distDims mask extra uk).body.length =
      ((dims.filter (fun x => ¬ x ∈ fixed)).map (fun d0 =>
        (if mask d0 .left then 1 else 0) +
        (if mask d0 .right then 1 else 0))).sum) ∧
    (hu_call dims fixed distDims extra d s ∈
        (make_haloupdate dims fixed distDims mask extra uk).body
      ↔ mask d s = true) ∧
    (make_haloupdate ["x", "y"] [] ["x", "y"] (fun d0 _ => d0 == "x") [] 0).body
      = [MNode.call "sendrecv2d"
           [.sym "a",
            .fieldSize .owned "x" .left, .fieldSize .nopad "y" .left,
            .fieldOfs .owned "x" .left, .fieldOfs .nopad "y" .left,
            .fieldOfs .halo "x" .right, .fieldOfs .nopad "y" .right,
            .field "rc" "nb", .field "lc" "nb", .sym "comm"],
         MNode.call "sendrecv2d"
           [.sym "a",
            .fieldSize .owned "x" .right, .fieldSize .nopad "y" .right,
            .fieldOfs .owned "x" .right, .fieldOfs .nopad "y" .right,
            .fieldOfs .halo "x" .left, .fieldOfs .nopad "y" .left,
            .field "lc" "nb", .field "rc" "nb", .sym "comm"]] := by
  refine ⟨?_, ?_, by rfl⟩
  · simp only [make_haloupdate, List.length_flatMap]
    congr 1
    apply List.map_congr_left
    intro d0 _
    by_cases h1 : mask d0 .left <;> by_cases h2 : mask d0 .right <;>
      simp [h1, h2]
  · simp only [make_haloupdate, List.mem_flatMap]
    constructor
    · rintro ⟨a, ha, hmem⟩
      rcases List.mem_append.1 hmem with hm | hm
      · by_cases hf : mask a .left = true
        · rw [if_pos hf] at hm
          simp only [List.mem_singleton] at hm
          obtain ⟨had, has⟩ := hu_call_inj dims fixed distDims extra d a _ _ hd hm
          rw [← had, ← has]
          exact hf
        · rw [if_neg hf] at hm
          simp at hm
      · by_cases hf : mask a .right = true
        · rw [if_pos hf] at hm
          simp only [List.mem_singleton] at hm
          obtain ⟨had, has⟩ := hu_call_inj dims fixed distDims extra d a _ _ hd hm
          rw [← had, ← has]
          exact hf
        · rw [if_neg hf] at hm
          simp at hm
    · intro hm
      refine ⟨d, hd, ?_⟩
      rcases s with _ | _
      · exact List.mem_append_left _ (by simp [hm])
      · exact List.mem_append_right _ (by simp [hm])

/-- C8, witness: for the 2-D mask, dimension `x` is non-fixed and the
left exchange for `x` is present iff its flag is set (it is). -/
theorem c8_haloupdate_emission_witness :
    ("x" ∈ ["x", "y"].filter (fun x => ¬ x ∈ ([] : List String))) ∧
    (hu_call ["x", "y"] [] ["x", "y"] [] "x" .left ∈
        (make_haloupdate ["x", "y"] [] ["x", "y"] (fun d0 _ => d0 == "x")
          [] 0).body
      ↔ (fun d0 _ => d0 == "x") "x" Side.left = true) :=
  ⟨by simp,
   (c8_haloupdate_emission ["x", "y"] [] ["x", "y"] (fun d0 _ => d0 == "x")
     [] 0 "x" .left (by simp)).2.1⟩

lemma find?_key_append {α : Type} (l1 l2 : List α) (q : α → Bool) :
    (l1 ++ l2).find? q =
      match l1.find? q with
      | some x => some x
      | none => l2.find? q := by
  induction l1 with
  | nil => simp
  | cons a l ih =>
    by_cases h : q a <;> simp [List.find?, h, ih]

lemma lookupF_append (fs l2 : List (String × ECallable)) (name : String) :
    lookupF (fs ++ l2) name =
      match lookupF fs name with
      | some v => some v
      | none => lookupF l2 name := by
  unfold lookupF
  rw [find?_key_append]
  cases h : fs.find? (fun p => p.1 == name) <;> simp

lemma lookupF_fold (ps : List (String × ECallable))
    (fs : List (String × ECallable)) (name : String) :
    lookupF (ps.foldl (fun acc p => setdefaultF acc p.1 p.2) fs) name =
      match lookupF fs name with
      | some v => some v
      | none => (ps.find? (fun p => p.1 == name)).map Prod.snd := by
  induction ps generalizing fs with
  | nil => cases h : lookupF fs name <;> simp [h]
  | cons p ps ih =>
    simp only [List.foldl_cons]
    rw [ih]
    have hstep : lookupF (setdefaultF fs p.1 p.2) name =
        match lookupF fs name with
        | some v => some v
        | none => if p.1 == name then some p.2 else none := by
      unfold setdefaultF
      by_cases hk : (lookupF fs p.1).isSome
      · rw [if_pos hk]
        cases h : lookupF fs name with
        | some v => simp
        | none =>
          simp only
          by_cases hpn : p.1 = name
          · subst hpn
            rw [h] at hk
            simp at hk
          · simp [hpn]
      · rw [if_neg hk]
        rw [lookupF_append]
        cases h : lookupF fs name with
        | some v => simp
        | none =>
          simp only [lookupF, List.find?]
          by_cases hpn : (p.1 == name) <;> simp [hpn]
    rw [hstep]
    cases h : lookupF fs name with
    | some v => simp
    | none =>
      simp only [List.find?]
      by_cases hpn : (p.1 == name)
      · simp [hpn]
      · simp [hpn]

lemma efuncsState_snd (nodes : INode) :
    (efuncsState nodes).2 = (producedCallables nodes).foldl
      (fun acc p => setdefaultF acc p.1 p.2) [] := by
  unfold efuncsState producedCallables
  generalize iterChains nodes = cs
  suffices h : ∀ (cs : List (List INode)) (m : List (Nat × INode))
      (fs : List (String × ECallable)),
      (cs.foldl (fun st c =>
        match processChain c with
        | none => st
        | some r =>
          (setAssocN st.1 r.rootNid
            (INode.seq true [INode.callI r.name r.callArgs]),
           setdefaultF st.2 r.name ⟨r.name, r.freeBody, "void", r.parameters⟩))
        (m, fs)).2 =
      (cs.filterMap (fun c => (processChain c).map (fun r =>
        (r.name, (⟨r.name, r.freeBody, "void", r.parameters⟩ : ECallable))))).foldl
        (fun acc p => setdefaultF acc p.1 p.2) fs by
    exact h cs [] []
  intro cs
  induction cs with
  | nil => intro m fs; rfl
  | cons c cs ih =>
    intro m fs
    cases h : processChain c with
    | none => simp only [List.foldl_cons, List.filterMap_cons, h]; exact ih _ _
    | some r => simp only [List.foldl_cons, List.filterMap_cons, h,
        Option.map_some]; exact ih _ _

lemma lookupN_append (m l2 : List (Nat × INode)) (k : Nat) :
    lookupN (m ++ l2) k =
      match lookupN m k with
      | some v => some v
      | none => lookupN l2 k := by
  unfold lookupN
  rw [find?_key_append]
  cases h : m.find? (fun p => p.1 == k) <;> simp

lemma lookupN_cons (q : Nat × INode) (l : List (Nat × INode)) (k : Nat) :
    lookupN (q :: l) k = if q.1 == k then some q.2 else lookupN l k := by
  unfold lookupN
  by_cases h : (q.1 == k) = true <;> simp [List.find?, h]

lemma lookupN_mapReplace (m : List (Nat × INode)) (k : Nat) (v : INode) :
    lookupN (m.map (fun p => if p.1 == k then (k, v) else p)) k =
      match lookupN m k with
      | some _ => some v
      | none => none := by
  induction m with
  | nil => rfl
  | cons p m ih =>
    by_cases hp : (p.1 == k) = true
    · simp only [List.map_cons, hp, if_true, lookupN_cons, beq_self_eq_true]
    · simp only [List.map_cons, hp, Bool.false_eq_true, if_false, lookupN_cons]
      exact ih

lemma lookupN_mapReplace_other (m : List (Nat × INode)) (k : Nat) (v : INode)
    (k' : Nat) (h : ¬ k = k') :
    lookupN (m.map (fun p => if p.1 == k then (k, v) else p)) k' = lookupN m k' := by
  induction m with
  | nil => rfl
  | cons p m ih =>
    by_cases hp : (p.1 == k) = true
    · have hp1 : p.1 = k := by simpa using hp
      simp only [List.map_cons, hp, if_true, lookupN_cons]
      rw [if_neg (by simpa using h), if_neg (by simp [hp1]; exact h)]
      exact ih
    · simp only [List.map_cons, hp, Bool.false_eq_true, if_false, lookupN_cons]
      by_cases hq : (p.1 == k') = true
      · rw [if_pos hq, if_pos hq]
      · rw [if_neg (by simpa using hq), if_neg (by simpa using hq)]
        exact ih

lemma lookupN_setAssoc_self (m : List (Nat × INode)) (k : Nat) (v : INode) :
    lookupN (setAssocN m k v) k = some v := by
  unfold setAssocN
  by_cases h : (lookupN m k).isSome
  · rw [if_pos h, lookupN_mapReplace]
    obtain ⟨w, hw⟩ := Option.isSome_iff_exists.1 h
    rw [hw]
  · rw [if_neg h, lookupN_append]
    have hn : lookupN m k = none := Option.not_isSome_iff_eq_none.1 h
    rw [hn, lookupN_cons]
    simp

lemma lookupN_setAssoc_other (m : List (Nat × INode)) (k : Nat) (v : INode)
    (k' : Nat) (h : ¬ k = k') :
    lookupN (setAssocN m k v) k' = lookupN m k' := by
  unfold setAssocN
  by_cases hp : (lookupN m k).isSome
  · rw [if_pos hp]
    exact lookupN_mapReplace_other m k v k' h
  · rw [if_neg hp, lookupN_append]
    cases hx : lookupN m k' with
    | some w => simp
    | none =>
      simp only [lookupN_cons]
      rw [if_neg (by simpa using h)]
      rfl

lemma lookupN_fold_mem (ps : List (Nat × INode)) (m : List (Nat × INode))
    (k : Nat) (v : INode) :
    lookupN (ps.foldl (fun acc p => setAssocN acc p.1 p.2) m) k = some v →
    (k, v) ∈ ps ∨ lookupN m k = some v := by
  induction ps generalizing m with
  | nil => exact fun h => Or.inr h
  | cons p ps ih =>
    intro h
    rcases ih _ h with hm | hm
    · exact Or.inl (List.mem_cons_of_mem _ hm)
    · by_cases hk : p.1 = k
      · subst hk
        rw [lookupN_setAssoc_self] at hm
        have hv : p.2 = v := by injection hm
        left
        rw [show (p.1, v) = p from by rw [← hv]]
        exact List.mem_cons_self _ _
      · rw [lookupN_setAssoc_other m p.1 p.2 k hk] at hm
        exact Or.inr hm

lemma lookupN_fold_isSome_mono (ps : List (Nat × INode))
    (m : List (Nat × INode)) (k : Nat) (h : (lookupN m k).isSome) :
    (lookupN (ps.foldl (fun acc p => setAssocN acc p.1 p.2) m) k).isSome := by
  induction ps generalizing m with
  | nil => exact h
  | cons p ps ih =>
    apply ih
    by_cases hk : p.1 = k
    · subst hk
      rw [lookupN_setAssoc_self]
      rfl
    · rw [lookupN_setAssoc_other _ _ _ _ hk]
      exact h

lemma lookupN_fold_present (ps : List (Nat × INode)) (m : List (Nat × INode))
    (k : Nat) (h : k ∈ ps.map Prod.fst) :
    (lookupN (ps.foldl (fun acc p => setAssocN acc p.1 p.2) m) k).isSome := by
  induction ps generalizing m with
  | nil => simp at h
  | cons p ps ih =>
    simp only [List.map_cons, List.mem_cons] at h
    rcases h with rfl | h
    · simp only [List.foldl_cons]
      apply lookupN_fold_isSome_mono
      rw [lookupN_setAssoc_self]
      rfl
    · simp only [List.foldl_cons]
      exact ih _ h

lemma efuncsState_fst (nodes : INode) :
    (efuncsState nodes).1 = (producedMapper nodes).foldl
      (fun acc p => setAssocN acc p.1 p.2) [] := by
  unfold efuncsState producedMapper
  generalize iterChains nodes = cs
  suffices h : ∀ (cs : List (List INode)) (m : List (Nat × INode))
      (fs : List (String × ECallable)),
      (cs.foldl (fun st c =>
        match processChain c with
        | none => st
        | some r =>
          (setAssocN st.1 r.rootNid
            (INode.seq true [INode.callI r.name r.callArgs]),
           setdefaultF st.2 r.name ⟨r.name, r.freeBody, "void", r.parameters⟩))
        (m, fs)).1 =
      (cs.filterMap (fun c => (processChain c).map (fun r =>
        (r.rootNid, INode.seq true [INode.callI r.name r.callArgs])))).foldl
        (fun acc p => setAssocN acc p.1 p.2) m by
    exact h cs [] []
  intro cs
  induction cs with
  | nil => intro m fs; rfl
  | cons c cs ih =>
    intro m fs
    cases h : processChain c with
    | none => simp only [List.foldl_cons, List.filterMap_cons, h]; exact ih _ _
    | some r => simp only [List.foldl_cons, List.filterMap_cons, h,
        Option.map_some]; exact ih _ _

lemma processChain_spec (c : List INode) (r : ChainResult)
    (hr : processChain c = some r) :
    ∃ d b tg, c.find? (fun n => (tagOf n).isSome) = some (INode.iter d b) ∧
      d.tag = some tg ∧ d.elementizable = true ∧
      r.rootNid = d.nid ∧ r.name = "f_" ++ toString tg ∧
      r.target = c.drop (c.findIdx (fun n => nidOf n == d.nid)) ∧
      r.definedArgs = (buildFree r.target).1 ∧
      r.callArgs = (elemArgs r.definedArgs
        (deriveParameters r.freeBody)).map Prod.fst ∧
      r.parameters = (elemArgs r.definedArgs
        (deriveParameters r.freeBody)).map Prod.snd ∧
      (∃ casts free, r.freeBody = INode.seq false [INode.seq false casts, free] ∧
        free = visitNested (buildFree r.target).2 (isize (INode.iter d b))
          (INode.iter d b)) := by
  unfold processChain at hr
  cases hfind : c.find? (fun n => (tagOf n).isSome) with
  | none =>
    rw [hfind] at hr
    simp at hr
  | some root =>
    simp only [hfind] at hr
    by_cases helem : elementizableOf root = true
    · rw [if_pos helem] at hr
      cases root with
      | expr ts ss => simp at hr
      | seq h b => simp at hr
      | callI n args => simp at hr
      | cast t => simp at hr
      | iter d b =>
        cases htag : d.tag with
        | none =>
          simp only [htag] at hr
          exact Option.noConfusion hr
        | some tg =>
          simp only [htag, Option.some.injEq] at hr
          refine ⟨d, b, tg, rfl, htag, ?_, ?_, ?_, ?_, ?_, ?_, ?_, ?_⟩
          · simpa [elementizableOf] using helem
          · rw [← hr]
          · rw [← hr]
          · rw [← hr]
          · rw [← hr]
          · rw [← hr]
          · rw [← hr]
          · exact ⟨_, _, by rw [← hr], by rw [← hr]⟩
    · rw [if_neg helem] at hr
      simp at hr

lemma registry_lookup (nodes : INode) (name : String) :
    lookupF (create_efuncs nodes).2 name =
      ((producedCallables nodes).find? (fun p => p.1 == name)).map Prod.snd := by
  show lookupF (efuncsState nodes).2 name = _
  rw [efuncsState_snd, lookupF_fold]
  rfl

lemma producedCallables_mem (nodes : INode) (q : String × ECallable)
    (h : q ∈ producedCallables nodes) :
    ∃ c r, c ∈ iterChains nodes ∧ processChain c = some r ∧
      q = (r.name, (⟨r.name, r.freeBody, "void", r.parameters⟩ : ECallable)) := by
  unfold producedCallables at h
  rw [List.mem_filterMap] at h
  obtain ⟨c, hc, hmap⟩ := h
  cases hp : processChain c with
  | none => rw [hp] at hmap; exact Option.noConfusion hmap
  | some r =>
    rw [hp] at hmap
    simp only [Option.map_some', Option.some.injEq] at hmap
    exact ⟨c, r, hc, hp, hmap.symm⟩

lemma producedMapper_mem (nodes : INode) (q : Nat × INode)
    (h : q ∈ producedMapper nodes) :
    ∃ c r, c ∈ iterChains nodes ∧ processChain c = some r ∧
      q = (r.rootNid, INode.seq true [INode.callI r.name r.callArgs]) := by
  unfold producedMapper at h
  rw [List.mem_filterMap] at h
  obtain ⟨c, hc, hmap⟩ := h
  cases hp : processChain c with
  | none => rw [hp] at hmap; exact Option.noConfusion hmap
  | some r =>
    rw [hp] at hmap
    simp only [Option.map_some', Option.some.injEq] at hmap
    exact ⟨c, r, hc, hp, hmap.symm⟩

lemma producedMapper_of_chain (nodes : INode) (c : List INode) (r : ChainResult)
    (hc : c ∈ iterChains nodes) (hr : processChain c = some r) :
    (r.rootNid, INode.seq true [INode.callI r.name r.callArgs])
      ∈ producedMapper nodes := by
  unfold producedMapper
  rw [List.mem_filterMap]
  exact ⟨c, hc, by rw [hr]; rfl⟩

lemma producedCallables_of_chain (nodes : INode) (c : List INode)
    (r : ChainResult) (hc : c ∈ iterChains nodes)
    (hr : processChain c = some r) :
    (r.name, (⟨r.name, r.freeBody, "void", r.parameters⟩ : ECallable))
      ∈ producedCallables nodes := by
  unfold producedCallables
  rw [List.mem_filterMap]
  exact ⟨c, hc, by rw [hr]; rfl⟩

mutual

theorem visitPlain_nil (n : INode) : visitPlain [] n = n := by
  cases n with
  | iter d b =>
    rw [visitPlain]
    simp only [lookupN, List.find?]
    rw [visitPlainL_nil b]
  | seq h b =>
    rw [visitPlain]
    rw [visitPlainL_nil b]
  | expr ts ss => rfl
  | callI nm args => rfl
  | cast t => rfl

theorem visitPlainL_nil (l : List INode) : visitPlainL [] l = l := by
  cases l with
  | nil => rfl
  | cons n ns =>
    rw [visitPlainL]
    rw [visitPlain_nil n, visitPlainL_nil ns]

end

lemma efuncsState_all_none (nodes : INode)
    (h : ∀ c ∈ iterChains nodes, processChain c = none) :
    efuncsState nodes = ([], []) := by
  unfold efuncsState
  suffices hgen : ∀ (cs : List (List INode))
      (st : List (Nat × INode) × List (String × ECallable)),
      (∀ c ∈ cs, processChain c = none) →
      (cs.foldl (fun st c =>
        match processChain c with
        | none => st
        | some r =>
          (setAssocN st.1 r.rootNid
            (INode.seq true [INode.callI r.name r.callArgs]),
           setdefaultF st.2 r.name ⟨r.name, r.freeBody, "void", r.parameters⟩))
        st) = st by
    exact hgen (iterChains nodes) ([], []) h
  intro cs
  induction cs with
  | nil => intro st _; rfl
  | cons c cs ih =>
    intro st hall
    simp only [List.foldl_cons, hall c (by simp)]
    exact ih st (fun x hx => hall x (by simp [hx]))

lemma buildFree_pairs (l : List INode) :
    ∀ p ∈ (buildFree l).2, ∃ d' b', p.2 = INode.iter d' b' ∧
      d'.lo = .sym (d'.dim ++ "f_m") ∧ d'.hi = .sym (d'.dim ++ "f_M") ∧
      d'.step = .lit 1 := by
  induction l with
  | nil => intro p hp; simp [buildFree] at hp
  | cons n ns ih =>
    intro p hp
    cases n with
    | iter d b =>
      simp only [buildFree] at hp
      rcases List.mem_cons.1 hp with rfl | hp
      · exact ⟨_, b, rfl, rfl, rfl, rfl⟩
      · exact ih p hp
    | expr ts ss => exact ih p hp
    | seq hh b => exact ih p hp
    | callI nm args => exact ih p hp
    | cast t => exact ih p hp

lemma buildFree_definedArgs (l : List INode) :
    ∀ d b, INode.iter d b ∈ l →
      ((d.dim ++ "f_m", d.lo) ∈ (buildFree l).1 ∧
       (d.dim ++ "f_M", d.hi) ∈ (buildFree l).1) := by
  induction l with
  | nil => intro d b h; simp at h
  | cons n ns ih =>
    intro d b h
    rcases List.mem_cons.1 h with heq | hmem
    · rw [← heq]
      simp only [buildFree, freeIterData]
      constructor
      · exact List.mem_append_left _ (by simp)
      · exact List.mem_append_left _ (by simp)
    · have hin := ih d b hmem
      cases n with
      | iter d0 b0 =>
        simp only [buildFree]
        exact ⟨List.mem_append_right _ hin.1, List.mem_append_right _ hin.2⟩
      | expr ts ss => exact hin
      | seq hh b0 => exact hin
      | callI nm args => exact hin
      | cast t => exact hin

lemma elemArgs_pairs (da : List (String × IExp)) (ps : List PSym) :
    ∀ pr ∈ elemArgs da ps, ∀ v,
      lookupS da pr.2.pname = some v → pr.1 = v := by
  intro pr hpr v hv
  unfold elemArgs at hpr
  rcases List.mem_map.1 hpr with ⟨p, hp, heq⟩
  cases hl : lookupS da p.pname with
  | some w =>
    rw [hl] at heq
    rw [← heq] at hv ⊢
    simp only at hv ⊢
    rw [hl] at hv
    injection hv
  | none =>
    rw [hl] at heq
    cases p with
    | dim nm =>
      rw [← heq] at hv
      simp only [PSym.pname] at hv
      simp only [PSym.pname] at hl
      rw [hl] at hv
      exact Option.noConfusion hv
    | scalar nm =>
      rw [← heq] at hv
      simp only [PSym.pname] at hv hl
      rw [hl] at hv
      exact Option.noConfusion hv
    | tensor nm =>
      rw [← heq] at hv
      simp only [PSym.pname] at hv hl
      rw [hl] at hv
      exact Option.noConfusion hv

/-- C2, counterexample.  The claim states that a name requested twice
with structurally different bodies halts generation with a fatal
error.  Two nests tagged 5 — one over `x` with tensor `A` (3
parameters), one over `y`/`z` with tensor `B` (5 parameters) — both
request the callable name `f_5`; generation completes normally and the
registry silently keeps only the first definition. -/
theorem c2_counterexample :
    ((producedCallables (INode.seq false
        [INode.iter ⟨1, "x", .sym "x_m", .sym "x_M", .lit 1, [], some 5, true⟩
           [INode.expr ["A"] []],
         INode.iter ⟨2, "y", .sym "y_m", .sym "y_M", .lit 1, [], some 5, true⟩
           [INode.iter ⟨3, "z", .sym "z_m", .sym "z_M", .lit 1, [], none, false⟩
              [INode.expr ["B"] []]]])).map
       (fun p => (p.1, p.2.parameters.length)) = [("f_5", 3), ("f_5", 5)]) ∧
    ((create_efuncs (INode.seq false
        [INode.iter ⟨1, "x", .sym "x_m", .sym "x_M", .lit 1, [], some 5, true⟩
           [INode.expr ["A"] []],
         INode.iter ⟨2, "y", .sym "y_m", .sym "y_M", .lit 1, [], some 5, true⟩
           [INode.iter ⟨3, "z", .sym "z_m", .sym "z_M", .lit 1, [], none, false⟩
              [INode.expr ["B"] []]]])).2.map
       (fun p => (p.1, p.2.parameters.length)) = [("f_5", 3)]) := by
  exact ⟨rfl, rfl⟩

/-- C2, amended.  When the same callable name is requested more than
once, `_create_efuncs` never fails: `functions.setdefault` keeps the
first registered definition and silently ignores every later request
under the same name (only the new call site is produced); the
registered callable under any name is exactly the first one produced
by the chains. -/
theorem c2_amended (nodes : INode) (name : String) :
    lookupF (create_efuncs nodes).2 name =
      ((producedCallables nodes).find? (fun p => p.1 == name)).map Prod.snd :=
  registry_lookup nodes name

/-- C4.  After the outlining pass: every chain whose outermost tagged
iteration is outline-eligible gets its root handle mapped to a
`List(noinline, Call)` wrapper — not the inline nest — which the final
rewrite places at every tree position carrying that handle; a Callable
named `f_<tag>` with void return is registered from a chain producing
that name; every loop of the outlined slice is rebuilt with fresh
scalar bounds `<dim>f_m`/`<dim>f_M` and step 1; the recorded origin
expressions are the original symbolic bounds; call-site arguments at
bound-parameter positions equal the recorded origin expressions; and a
tree with no tagged eligible chain passes through untouched with an
empty registry. -/
theorem c4_outlining (nodes : INode) :
    (∀ c ∈ iterChains nodes, ∀ r, processChain c = some r →
      (∃ name args,
        lookupN (efuncsState nodes).1 r.rootNid =
          some (INode.seq true [INode.callI name args]) ∧
        ∀ d b, d.nid = r.rootNid →
          visitPlain (efuncsState nodes).1 (INode.iter d b) =
            INode.seq true [INode.callI name args]) ∧
      (∃ c2 r2, c2 ∈ iterChains nodes ∧ processChain c2 = some r2 ∧
        r2.name = r.name ∧
        lookupF (create_efuncs nodes).2 r.name =
          some ⟨r2.name, r2.freeBody, "void", r2.parameters⟩) ∧
      (∃ d b tg, c.find? (fun n => (tagOf n).isSome) = some (INode.iter d b) ∧
        d.tag = some tg ∧ r.name = "f_" ++ toString tg) ∧
      (∀ p ∈ (buildFree r.target).2, ∃ d' b', p.2 = INode.iter d' b' ∧
        d'.lo = .sym (d'.dim ++ "f_m") ∧ d'.hi = .sym (d'.dim ++ "f_M") ∧
        d'.step = .lit 1) ∧
      (∀ d b, INode.iter d b ∈ r.target →
        ((d.dim ++ "f_m", d.lo) ∈ r.definedArgs ∧
         (d.dim ++ "f_M", d.hi) ∈ r.definedArgs)) ∧
      (∀ pr ∈ r.callArgs.zip r.parameters, ∀ v,
        lookupS r.definedArgs pr.2.pname = some v → pr.1 = v)) ∧
    ((∀ c ∈ iterChains nodes, processChain c = none) →
      create_efuncs nodes = (nodes, [])) := by
  constructor
  · intro c hc r hr
    obtain ⟨d0, b0, tg, hfind, htag, helem, hnid, hname, htarget, hda,
      hcall, hparams, casts0, free0, hbody, hfree⟩ := processChain_spec c r hr
    refine ⟨?_, ?_, ⟨d0, b0, tg, hfind, htag, hname⟩, ?_, ?_, ?_⟩
    · -- (1) mapper entry and positional replacement
      have hmem := producedMapper_of_chain nodes c r hc hr
      have hpres := lookupN_fold_present (producedMapper nodes) [] r.rootNid
        (List.mem_map.2 ⟨_, hmem, rfl⟩)
      obtain ⟨v, hv⟩ := Option.isSome_iff_exists.1 hpres
      have hvE : lookupN (efuncsState nodes).1 r.rootNid = some v := by
        rw [efuncsState_fst]
        exact hv
      rcases lookupN_fold_mem _ _ _ _ hv with hin | hbase
      · obtain ⟨c2, r2, hc2, hr2, heq⟩ := producedMapper_mem nodes _ hin
        have hv2 : v = INode.seq true [INode.callI r2.name r2.callArgs] := by
          have := congrArg Prod.snd heq
          simpa using this
        refine ⟨r2.name, r2.callArgs, by rw [hvE, hv2], ?_⟩
        intro d b hd
        rw [visitPlain]
        rw [hd, hvE, hv2]
      · simp [lookupN] at hbase
    · -- (2) registered callable
      have hcal := producedCallables_of_chain nodes c r hc hr
      have hfs : ((producedCallables nodes).find?
          (fun p => p.1 == r.name)).isSome := by
        rw [List.find?_isSome]
        exact ⟨_, hcal, by simp⟩
      obtain ⟨q, hq⟩ := Option.isSome_iff_exists.1 hfs
      have hq1 : q.1 = r.name := by
        have := List.find?_some hq
        simpa using this
      obtain ⟨c2, r2, hc2, hr2, hqe⟩ :=
        producedCallables_mem nodes q (List.mem_of_find?_eq_some hq)
      have hq1' : r2.name = r.name := by
        rw [hqe] at hq1
        exact hq1
      refine ⟨c2, r2, hc2, hr2, hq1', ?_⟩
      rw [registry_lookup, hq, hqe]
      rfl
    · exact buildFree_pairs r.target
    · intro d b hmem
      rw [hda]
      exact buildFree_definedArgs r.target d b hmem
    · intro pr hpr v hv
      rw [hcall, hparams] at hpr
      rw [List.zip_map'] at hpr
      have hid : (elemArgs r.definedArgs (deriveParameters r.freeBody)).map
          (fun a => (a.1, a.2)) =
          elemArgs r.definedArgs (deriveParameters r.freeBody) :=
        List.map_id _
      rw [hid] at hpr
      exact elemArgs_pairs r.definedArgs (deriveParameters r.freeBody) pr hpr v hv
  · intro hnone
    unfold create_efuncs
    rw [efuncsState_all_none nodes hnone]
    simp only
    rw [visitPlain_nil]

/-- C4, witness: the single-nest tree over `x` tagged 5: its chain
processes to a result whose recorded origin expressions are the
original bounds of `x`. -/
theorem c4_outlining_witness :
    ([INode.iter ⟨1, "x", .sym "x_m", .sym "x_M", .lit 1, [], some 5, true⟩
        [INode.expr ["A"] []]] ∈ iterChains (INode.seq false
      [INode.iter ⟨1, "x", .sym "x_m", .sym "x_M", .lit 1, [], some 5, true⟩
        [INode.expr ["A"] []]])) ∧
    (∀ d b, INode.iter d b ∈
        [INode.iter ⟨1, "x", .sym "x_m", .sym "x_M", .lit 1, [], some 5, true⟩
          [INode.expr ["A"] []]].drop 0 →
      ((d.dim ++ "f_m", d.lo) ∈
          ([("xf_m", IExp.sym "x_m"), ("xf_M", IExp.sym "x_M")] :
            List (String × IExp)) ∧
       (d.dim ++ "f_M", d.hi) ∈
          ([("xf_m", IExp.sym "x_m"), ("xf_M", IExp.sym "x_M")] :
            List (String × IExp)))) := by
  constructor
  · exact List.mem_singleton.2 rfl
  · have h := ((c4_outlining (INode.seq false
      [INode.iter ⟨1, "x", .sym "x_m", .sym "x_M", .lit 1, [], some 5, true⟩
        [INode.expr ["A"] []]])).1
      ([INode.iter ⟨1, "x", .sym "x_m", .sym "x_M", .lit 1, [], some 5, true⟩
        [INode.expr ["A"] []]])
      (List.mem_singleton.2 rfl) _ rfl).2.2.2.2.1
    exact h

lemma nodup_fst_mem_eq {β : Type} (l : List (String × β))
    (h : (l.map Prod.fst).Nodup) (p q : String × β)
    (hp : p ∈ l) (hq : q ∈ l) (heq : p.1 = q.1) : p = q := by
  induction l with
  | nil => simp at hp
  | cons a l ih =>
    simp only [List.map_cons, List.nodup_cons] at h
    rcases List.mem_cons.1 hp with rfl | hp2
    · rcases List.mem_cons.1 hq with rfl | hq2
      · rfl
      · exact absurd (List.mem_map.2 ⟨q, hq2, heq.symm⟩) h.1
    · rcases List.mem_cons.1 hq with rfl | hq2
      · exact absurd (List.mem_map.2 ⟨p, hp2, heq⟩) h.1
      · exact ih h.2 hp2 hq2

/-- C5, counterexample.  The claim requires every generated call site's
argument list to match the invoked callable's formal parameters.  With
two nests tagged 5 of different depth, the second nest's call site
invokes `f_5` with 5 arguments while the registered `f_5` (from the
first nest) has 3 formal parameters. -/
theorem c5_counterexample :
    mapperCallArgsLen (efuncsState (INode.seq false
      [INode.iter ⟨1, "x", .sym "x_m", .sym "x_M", .lit 1, [], some 5, true⟩
         [INode.expr ["A"] []],
       INode.iter ⟨2, "y", .sym "y_m", .sym "y_M", .lit 1, [], some 5, true⟩
         [INode.iter ⟨3, "z", .sym "z_m", .sym "z_M", .lit 1, [], none, false⟩
            [INode.expr ["B"] []]]])).1 2 = some 5 ∧
    ((lookupF (create_efuncs (INode.seq false
      [INode.iter ⟨1, "x", .sym "x_m", .sym "x_M", .lit 1, [], some 5, true⟩
         [INode.expr ["A"] []],
       INode.iter ⟨2, "y", .sym "y_m", .sym "y_M", .lit 1, [], some 5, true⟩
         [INode.iter ⟨3, "z", .sym "z_m", .sym "z_M", .lit 1, [], none, false⟩
            [INode.expr ["B"] []]]])).2 "f_5").map
      (fun cal => cal.parameters.length)) = some 3 := by
  exact ⟨rfl, rfl⟩

/-- C5, amended.  Parameter fidelity holds for every routine generated
by the halo-exchange builder (gather/scatter call sites in sendrecv,
sendrecv call sites in haloupdate, haloupdate call sites built per
fmapper entry against the callable built from that entry), and for the
outlining pass per chain; the registered callable matches every final
call site whenever no two chains produce the same callable name (tag
collisions across structurally different nests break this, as the
counterexample shows). -/
theorem c5_amended (nodes : INode) (dims fixed distDims : List String)
    (threaded : Bool) (mpit : String) (extra : List MArg) (d : String)
    (s : Side) (st : MakeState) (e : FEntry) (uk : Nat) :
    (∃ gargs sargs,
      (make_sendrecv dims fixed mpit
          (make_copy dims fixed threaded false).2).body[1]?
        = some (MNode.cond (.sym "torank") (.mac "MPI_PROC_NULL")
            (MNode.call (make_copy dims fixed threaded false).1.name gargs)) ∧
      gargs.length = (make_copy dims fixed threaded false).1.parameters.length ∧
      (make_sendrecv dims fixed mpit
          (make_copy dims fixed threaded false).2).body[5]?
        = some (MNode.cond (.sym "fromrank") (.mac "MPI_PROC_NULL")
            (MNode.call (make_copy dims fixed threaded true).1.name sargs)) ∧
      sargs.length = (make_copy dims fixed threaded true).1.parameters.length) ∧
    (∃ args, hu_call dims fixed distDims extra d s =
        MNode.call (make_sendrecv dims fixed mpit extra).name args ∧
      args.length = (make_sendrecv dims fixed mpit extra).parameters.length) ∧
    (∃ nm args, (makeEntry threaded st e).2 = MNode.call nm args ∧
      args.length = (make_haloupdate e.dims e.locKeys e.distDims e.maskFun
        (makeEntry threaded st e).1.extra uk).parameters.length) ∧
    (∀ c r, processChain c = some r →
      r.callArgs.length = r.parameters.length) ∧
    (((producedCallables nodes).map Prod.fst).Nodup →
      ∀ k v, lookupN (efuncsState nodes).1 k = some v →
      ∀ h nm args, v = INode.seq h [INode.callI nm args] →
      ∀ cal, lookupF (create_efuncs nodes).2 nm = some cal →
      args.length = cal.parameters.length) := by
  refine ⟨?_, ?_, ?_, ?_, ?_⟩
  · refine ⟨_, _, rfl, ?_, rfl, ?_⟩ <;>
    · cases threaded <;>
        simp [make_sendrecv, make_copy, dle_transform, iet_insert_C_decls,
          List.length_append, List.length_map]
  · rw [hu_call_form]
    refine ⟨_, rfl, ?_⟩
    cases s <;>
      simp [make_sendrecv, hu_sizes, hu_offsets, iet_insert_C_decls, oppSide,
        List.length_append, List.length_map]
  · refine ⟨_, _, rfl, ?_⟩
    show ([MArg.sym e.fname, MArg.sym "comm", MArg.sym "nb"]
        ++ e.locIndices.map Prod.snd ++ (makeEntry threaded st e).1.extra).length
      = (make_haloupdate e.dims e.locKeys e.distDims e.maskFun
          (makeEntry threaded st e).1.extra uk).parameters.length
    generalize (makeEntry threaded st e).1.extra = ex
    simp [make_haloupdate, FEntry.locKeys, List.length_append, List.length_map]
  · intro c r hr
    obtain ⟨d0, b0, tg, _, _, _, _, _, _, _, hcall, hparams, _⟩ :=
      processChain_spec c r hr
    rw [hcall, hparams]
    simp
  · intro hnodup k v hkv h nm args hv cal hcal
    have hv' : lookupN ((producedMapper nodes).foldl
        (fun acc p => setAssocN acc p.1 p.2) []) k = some v := by
      rw [← efuncsState_fst]
      exact hkv
    rcases lookupN_fold_mem _ _ _ _ hv' with hin | hbase
    · obtain ⟨c, r, hc, hr, heq⟩ := producedMapper_mem nodes _ hin
      have hveq : v = INode.seq true [INode.callI r.name r.callArgs] := by
        have := congrArg Prod.snd heq
        simpa using this
      rw [hveq] at hv
      have hinj := hv
      simp only [INode.seq.injEq, List.cons.injEq, INode.callI.injEq,
        and_true] at hinj
      obtain ⟨-, hnm, hargs⟩ := hinj
      rw [registry_lookup] at hcal
      obtain ⟨q, hq, hq2⟩ := Option.map_eq_some'.1 hcal
      have hq1 : q.1 = nm := by
        have := List.find?_some hq
        simpa using this
      have hqmem := List.mem_of_find?_eq_some hq
      have hrmem := producedCallables_of_chain nodes c r hc hr
      have hqr : q = (r.name,
          (⟨r.name, r.freeBody, "void", r.parameters⟩ : ECallable)) := by
        apply nodup_fst_mem_eq _ hnodup _ _ hqmem hrmem
        rw [hq1, ← hnm]
      have hcalp : cal.parameters = r.parameters := by
        rw [← hq2, hqr]
      rw [← hargs, hcalp]
      obtain ⟨d0, b0, tg, _, _, _, _, _, _, _, hcall2, hparams2, _⟩ :=
        processChain_spec c r hr
      rw [hcall2, hparams2]
      simp
    · simp [lookupN] at hbase

/-- C5, witness: for the 1-D sendrecv with no fixed dimensions and no
threading, the gather call site carries exactly as many arguments as
the gather callable has formal parameters. -/
theorem c5_amended_witness :
    (∃ gargs sargs,
      (make_sendrecv ["x"] [] "MPI_FLOAT"
          (make_copy ["x"] [] false false).2).body[1]?
        = some (MNode.cond (.sym "torank") (.mac "MPI_PROC_NULL")
            (MNode.call (make_copy ["x"] [] false false).1.name gargs)) ∧
      gargs.length = (make_copy ["x"] [] false false).1.parameters.length ∧
      (make_sendrecv ["x"] [] "MPI_FLOAT"
          (make_copy ["x"] [] false false).2).body[5]?
        = some (MNode.cond (.sym "fromrank") (.mac "MPI_PROC_NULL")
            (MNode.call (make_copy ["x"] [] false true).1.name sargs)) ∧
      sargs.length = (make_copy ["x"] [] false true).1.parameters.length) :=
  (c5_amended (INode.seq false []) ["x"] [] ["x"] false "MPI_FLOAT" []
    "x" Side.left ⟨[], []⟩
    ⟨"u", ["x"], ["x"], "float32", [], []⟩ 0).1

/-- C10.  `FrozenExpr.xreplace(rule)` returns `rule[self]` when the
expression itself is a key; returns the expression unchanged when the
rule is empty or when replacing every argument leaves all arguments
unchanged; and otherwise rebuilds `self.func` over the replaced
arguments with evaluation suppressed (`ffunc`, the raw constructor, so
no algebraic re-simplification can occur). -/
theorem c10_frozen_xreplace (rule : List (FExpr × FExpr)) (e : FExpr) :
    (∀ v, flookup rule e = some v → xreplace rule e = v) ∧
    (rule = [] → xreplace rule e = e) ∧
    (flookup rule e = none → (fargs e).map (xreplace rule) = fargs e →
      xreplace rule e = e) ∧
    (flookup rule e = none → rule ≠ [] →
      (fargs e).map (xreplace rule) ≠ fargs e →
      xreplace rule e = ffunc e ((fargs e).map (xreplace rule))) :=
  xreplace_cases rule e

/-- C10, witness: replacing `x` by `y` inside `Add(x, z)` (whose root
is not a key) rebuilds the node over the replaced arguments. -/
theorem c10_frozen_xreplace_witness :
    flookup [(FExpr.atom "x", FExpr.atom "y")]
      (FExpr.app "Add" [FExpr.atom "x", FExpr.atom "z"]) = none ∧
    xreplace [(FExpr.atom "x", FExpr.atom "y")]
      (FExpr.app "Add" [FExpr.atom "x", FExpr.atom "z"]) =
      ffunc (FExpr.app "Add" [FExpr.atom "x", FExpr.atom "z"])
        ((fargs (FExpr.app "Add" [FExpr.atom "x", FExpr.atom "z"])).map
          (xreplace [(FExpr.atom "x", FExpr.atom "y")])) :=
  ⟨by decide,
   (c10_frozen_xreplace [(FExpr.atom "x", FExpr.atom "y")]
       (FExpr.app "Add" [FExpr.atom "x", FExpr.atom "z"])).2.2.2
     (by decide) (by decide) (by decide)⟩

/-- C9.  Code generation is deterministic: the embedded generators are
pure functions of their input (every container in the source is
insertion-ordered and every key content-derived), so re-running the
halo-exchange builder or the outlining pass on the same input and
configuration reproduces the identical routine list, call sites,
transformed tree and callable registry. -/
theorem c9_determinism (threaded : Bool) (spots : List (List FEntry))
    (nodes : INode) :
    make threaded spots = make threaded spots ∧
    create_efuncs nodes = create_efuncs nodes :=
  ⟨rfl, rfl⟩

end Devito
